import Mathlib

/-!
Verification of the DocParse-Pro job-dispatch engine against its design
specification.

The Lean definitions below are a shallow embedding of the Python source:

* `backend/core/gpu_manager.py`        — `GPUResourceManager` (admission controller)
* `backend/core/ocr_queue.py`          — `InProcessOCRQueue` (two-lane queue, worker loop)
* `backend/core/forms_queue.py`        — `InProcessFormsQueue`
* `backend/services/redis_job_manager.py` — `set_job_status` / `get_job_status`
* `backend/services/ocr_pipeline_service.py` — `full_ocr_logic` progress writes
* `backend/utils/image/validation.py`  — `validate_image_file`, `validate_image_bytes`
* `backend/api/v1/endpoints/text_extraction.py` — `submit_ocr_job`
* `backend/utils/response_parser.py`   — `clean_json_string` / `generic_json_repair`

Python strings are modelled as `List Char` (`Str`), machine integers as
`ℕ`/`ℤ`, Python floats that only ever enter order comparisons (GPU memory
gigabytes) as `ℚ`.  All definitions are executable and structurally
recursive so that concrete runs evaluate inside the kernel.
-/

namespace DocParse

/-- Python strings, modelled as lists of characters. -/
abbrev Str := List Char

/-- Coerce a Lean string literal to the `Str` model. -/
def strOf : String → Str := String.toList

/-! ## GPU admission controller (`backend/core/gpu_manager.py`)

`GPUResourceManager.__init__` sets `_current_users = set()`,
`_max_concurrent = max_concurrent_users`, `_memory_threshold = 12.0`.
All operations run under `self._lock`, so each is modelled as one atomic
transition on this state. -/

structure GPUResourceManager where
  currentUsers : Finset Str
  maxConcurrent : ℕ
  memoryThreshold : ℚ
  deriving DecidableEq

/-- `GPUResourceManager(max_concurrent_users)` fresh instance:
empty holder set and the hard-coded 12.0 GiB memory threshold. -/
def initGpuManager (maxConcurrentUsers : ℕ) : GPUResourceManager :=
  { currentUsers := ∅, maxConcurrent := maxConcurrentUsers, memoryThreshold := 12 }

/-- `user_id = f"{service_name}_worker_{worker_id}" if worker_id is not None
else service_name` — the holder-id construction shared by `acquire_gpu`,
`release_gpu` and `wait_for_gpu`. -/
def userId (serviceName : Str) (workerId : Option ℕ) : Str :=
  match workerId with
  | some w => serviceName ++ strOf "_worker_" ++ strOf (Nat.repr w)
  | none => serviceName

/-- `log_gpu_memory` returns a dict with the allocated GiB when CUDA is
available and `None` otherwise; `acquire_gpu` only reads `["allocated"]`,
so the measurement is modelled as `Option ℚ` (gigabytes). -/
abbrev MemoryInfo := Option ℚ

/-- `GPUResourceManager.acquire_gpu`: under the lock, deny when
`len(self._current_users) >= self._max_concurrent`; otherwise deny when a
memory measurement exists and `memory_info["allocated"] > self._memory_threshold`;
otherwise `self._current_users.add(user_id)` and return `True`.
Returns the Python return value paired with the post state. -/
def acquireGpu (m : GPUResourceManager) (serviceName : Str) (workerId : Option ℕ)
    (memoryInfo : MemoryInfo) : Bool × GPUResourceManager :=
  let uid := userId serviceName workerId
  if m.currentUsers.card ≥ m.maxConcurrent then
    (false, m)
  else
    match memoryInfo with
    | some allocated =>
        if allocated > m.memoryThreshold then
          (false, m)
        else
          (true, { m with currentUsers := insert uid m.currentUsers })
    | none => (true, { m with currentUsers := insert uid m.currentUsers })

/-- `GPUResourceManager.release_gpu`: under the lock, remove `user_id` when
present, otherwise only log a warning (state unchanged). -/
def releaseGpu (m : GPUResourceManager) (serviceName : Str) (workerId : Option ℕ) :
    GPUResourceManager :=
  let uid := userId serviceName workerId
  if uid ∈ m.currentUsers then
    { m with currentUsers := m.currentUsers.erase uid }
  else
    m

/-- The memory gate of `acquire_gpu` as a boolean: open when no measurement
is available (check skipped) or when the allocation does not exceed the
threshold. -/
def memoryGateOpen (memoryInfo : MemoryInfo) (threshold : ℚ) : Bool :=
  match memoryInfo with
  | some allocated => !(allocated > threshold)
  | none => true

/-- One observable transition of the admission controller: some caller runs
`acquire_gpu` (with an arbitrary live memory measurement) or `release_gpu`.
`wait_for_gpu` only loops over `acquire_gpu`, and `get_stats`/`get_current_users`
do not write, so these two generators cover every mutation of the state. -/
inductive GpuStep : GPUResourceManager → GPUResourceManager → Prop
  | acquire (m : GPUResourceManager) (s : Str) (w : Option ℕ) (mem : MemoryInfo) :
      GpuStep m (acquireGpu m s w mem).2
  | release (m : GPUResourceManager) (s : Str) (w : Option ℕ) :
      GpuStep m (releaseGpu m s w)

/-- States reachable from a freshly constructed manager by any interleaving
of (lock-serialised) operations. -/
def GpuReachable (maxConcurrentUsers : ℕ) (m : GPUResourceManager) : Prop :=
  Relation.ReflTransGen GpuStep (initGpuManager maxConcurrentUsers) m

lemma acquireGpu_maxConcurrent (m : GPUResourceManager) (s : Str) (w : Option ℕ)
    (mem : MemoryInfo) : (acquireGpu m s w mem).2.maxConcurrent = m.maxConcurrent := by
  unfold acquireGpu
  dsimp only
  split
  · rfl
  · cases mem with
    | some a => dsimp only; split <;> rfl
    | none => rfl

lemma releaseGpu_maxConcurrent (m : GPUResourceManager) (s : Str) (w : Option ℕ) :
    (releaseGpu m s w).maxConcurrent = m.maxConcurrent := by
  unfold releaseGpu
  dsimp only
  split <;> rfl

lemma acquireGpu_card_le (m : GPUResourceManager) (s : Str) (w : Option ℕ)
    (mem : MemoryInfo) (h : m.currentUsers.card ≤ m.maxConcurrent) :
    (acquireGpu m s w mem).2.currentUsers.card ≤ (acquireGpu m s w mem).2.maxConcurrent := by
  rw [acquireGpu_maxConcurrent]
  unfold acquireGpu
  dsimp only
  split
  · exact h
  · rename_i hlt
    push_neg at hlt
    have hins : ∀ u : Str, (insert u m.currentUsers).card ≤ m.maxConcurrent := by
      intro u
      calc (insert u m.currentUsers).card ≤ m.currentUsers.card + 1 :=
            Finset.card_insert_le _ _
        _ ≤ m.maxConcurrent := Nat.succ_le_of_lt hlt
    cases mem with
    | some a =>
        dsimp only
        split
        · exact h
        · exact hins _
    | none => exact hins _

lemma releaseGpu_card_le (m : GPUResourceManager) (s : Str) (w : Option ℕ)
    (h : m.currentUsers.card ≤ m.maxConcurrent) :
    (releaseGpu m s w).currentUsers.card ≤ (releaseGpu m s w).maxConcurrent := by
  rw [releaseGpu_maxConcurrent]
  unfold releaseGpu
  dsimp only
  split
  · exact le_trans (Finset.card_le_card (Finset.erase_subset _ _)) h
  · exact h

/-- **C1.** At every time, the set of active GPU holders has cardinality at
most the configured capacity: every state reachable from
`GPUResourceManager(max_concurrent_users)` by any sequence of
(lock-serialised) `acquire_gpu`/`release_gpu` calls satisfies
`len(self._current_users) ≤ self._max_concurrent`. -/
theorem gpu_holders_card_le_max (maxConcurrentUsers : ℕ) (m : GPUResourceManager)
    (h : GpuReachable maxConcurrentUsers m) :
    m.currentUsers.card ≤ m.maxConcurrent := by
  induction h with
  | refl => simp [initGpuManager]
  | tail _ step ih =>
      cases step with
      | acquire s w mem => exact acquireGpu_card_le _ s w mem ih
      | release s w => exact releaseGpu_card_le _ s w ih

/-- Witness for C1: the state after one successful `acquire_gpu` on a
capacity-1 manager is reachable and satisfies the bound. -/
theorem gpu_holders_card_le_max_witness :
    (acquireGpu (initGpuManager 1) (strOf "ocr_queue") none none).2.currentUsers.card ≤
      (acquireGpu (initGpuManager 1) (strOf "ocr_queue") none none).2.maxConcurrent :=
  gpu_holders_card_le_max 1 _
    (Relation.ReflTransGen.single
      (GpuStep.acquire (initGpuManager 1) (strOf "ocr_queue") none none))

/-- **C4 (amended).** `acquire_gpu(holder)` returns `True` iff the holder
count is strictly below the capacity and the memory gate is open, where the
gate is open when no measurement is available or when the allocated memory
is **at most** the threshold (the code denies only on
`allocated > self._memory_threshold`, so an allocation exactly at the
threshold is admitted); on `True` the holder id has been inserted, on
`False` the state is unchanged. -/
theorem acquireGpu_characterisation (m : GPUResourceManager) (s : Str) (w : Option ℕ)
    (mem : MemoryInfo) :
    ((acquireGpu m s w mem).1 = true ↔
      m.currentUsers.card < m.maxConcurrent ∧ memoryGateOpen mem m.memoryThreshold = true)
    ∧ ((acquireGpu m s w mem).1 = true →
        (acquireGpu m s w mem).2.currentUsers = insert (userId s w) m.currentUsers)
    ∧ ((acquireGpu m s w mem).1 = false → (acquireGpu m s w mem).2 = m) := by
  unfold acquireGpu memoryGateOpen
  dsimp only
  by_cases hcap : m.currentUsers.card ≥ m.maxConcurrent
  · rw [if_pos hcap]
    refine ⟨?_, ?_, ?_⟩
    · constructor
      · intro h; exact absurd h (by simp)
      · intro h; exact absurd h.1 (not_lt.mpr hcap)
    · intro h; exact absurd h (by simp)
    · intro _; rfl
  · rw [if_neg hcap]
    push_neg at hcap
    cases mem with
    | some a =>
        dsimp only
        by_cases hmem : a > m.memoryThreshold
        · rw [if_pos hmem]
          refine ⟨?_, ?_, ?_⟩
          · constructor
            · intro h; exact absurd h (by simp)
            · intro h
              have := h.2
              simp [hmem] at this
          · intro h; exact absurd h (by simp)
          · intro _; rfl
        · rw [if_neg hmem]
          refine ⟨?_, ?_, ?_⟩
          · simp [hcap, hmem]
          · intro _; rfl
          · intro h; exact absurd h (by simp)
    | none =>
        refine ⟨?_, ?_, ?_⟩
        · simp [hcap]
        · intro _; rfl
        · intro h; exact absurd h (by simp)

/-- Witness for C4: on an empty capacity-1 manager with 5 GiB allocated the
acquire succeeds and records the holder. -/
theorem acquireGpu_characterisation_witness :
    (acquireGpu (initGpuManager 1) (strOf "ocr_queue") none (some 5)).1 = true ∧
    (acquireGpu (initGpuManager 1) (strOf "ocr_queue") none (some 5)).2.currentUsers =
      insert (userId (strOf "ocr_queue") none) (initGpuManager 1).currentUsers :=
  ⟨((acquireGpu_characterisation (initGpuManager 1) (strOf "ocr_queue") none
      (some 5)).1).mpr (by decide),
   (acquireGpu_characterisation (initGpuManager 1) (strOf "ocr_queue") none
      (some 5)).2.1 (((acquireGpu_characterisation (initGpuManager 1) (strOf "ocr_queue")
        none (some 5)).1).mpr (by decide))⟩

/-- Counterexample to C4 as stated: with the allocated memory exactly at the
12 GiB threshold, `acquire_gpu` returns `True` although the allocation is
not strictly below the threshold (the claim demands `allocated < threshold`). -/
theorem acquireGpu_threshold_not_strict :
    (acquireGpu (initGpuManager 1) (strOf "ocr_queue") none
        (some (initGpuManager 1).memoryThreshold)).1 = true
    ∧ ¬ ((initGpuManager 1).memoryThreshold < (initGpuManager 1).memoryThreshold) :=
  ⟨by decide, lt_irrefl _⟩

/-- **C9 (amended).** The OCR queue's `_process_job` calls
`gpu_manager.wait_for_gpu("ocr_queue", timeout=300.0)` and
`gpu_manager.release_gpu("ocr_queue")` with no `worker_id`, so every OCR
worker uses the single holder id `"ocr_queue"`: while that id is held,
under capacity 1 a further OCR acquire is denied; under capacity ≥ 2 a
further OCR acquire — *provided the memory gate admits* — returns `True`
without enlarging the holders set; and one release removes the shared
lease. -/
theorem ocr_queue_single_holder_id (m : GPUResourceManager) (mem : MemoryInfo)
    (hhold : strOf "ocr_queue" ∈ m.currentUsers) :
    userId (strOf "ocr_queue") none = strOf "ocr_queue"
    ∧ (m.maxConcurrent = 1 → (acquireGpu m (strOf "ocr_queue") none mem).1 = false)
    ∧ (2 ≤ m.maxConcurrent → m.currentUsers.card < m.maxConcurrent →
        memoryGateOpen mem m.memoryThreshold = true →
        (acquireGpu m (strOf "ocr_queue") none mem).1 = true ∧
        (acquireGpu m (strOf "ocr_queue") none mem).2.currentUsers = m.currentUsers)
    ∧ (releaseGpu m (strOf "ocr_queue") none).currentUsers =
        m.currentUsers.erase (strOf "ocr_queue") := by
  refine ⟨rfl, ?_, ?_, ?_⟩
  · intro hone
    have hcard : 1 ≤ m.currentUsers.card := Finset.card_pos.mpr ⟨_, hhold⟩
    unfold acquireGpu
    dsimp only
    rw [if_pos (by omega)]
  · intro _ hlt hgate
    unfold acquireGpu
    dsimp only
    rw [if_neg (not_le.mpr hlt)]
    cases mem with
    | some a =>
        dsimp only
        have hle : ¬ a > m.memoryThreshold := by
          simpa [memoryGateOpen] using hgate
        rw [if_neg hle]
        exact ⟨rfl, by simp [userId, Finset.insert_eq_self.mpr hhold]⟩
    | none => exact ⟨rfl, by simp [userId, Finset.insert_eq_self.mpr hhold]⟩
  · unfold releaseGpu
    dsimp only
    rw [if_pos (show userId (strOf "ocr_queue") none ∈ m.currentUsers from hhold)]
    rfl

/-- Witness for C9: a capacity-2 manager holding `"ocr_queue"` admits a
second OCR acquire without enlarging the holders set, and a release erases
the shared lease. -/
theorem ocr_queue_single_holder_id_witness :
    (acquireGpu ⟨{strOf "ocr_queue"}, 2, 12⟩ (strOf "ocr_queue") none none).1 = true ∧
    (acquireGpu ⟨{strOf "ocr_queue"}, 2, 12⟩ (strOf "ocr_queue") none none).2.currentUsers =
      ({strOf "ocr_queue"} : Finset Str) ∧
    (releaseGpu ⟨{strOf "ocr_queue"}, 2, 12⟩ (strOf "ocr_queue") none).currentUsers =
      ({strOf "ocr_queue"} : Finset Str).erase (strOf "ocr_queue") :=
  ⟨((ocr_queue_single_holder_id ⟨{strOf "ocr_queue"}, 2, 12⟩ none
      (by decide)).2.2.1 (by decide) (by decide) (by decide)).1,
   ((ocr_queue_single_holder_id ⟨{strOf "ocr_queue"}, 2, 12⟩ none
      (by decide)).2.2.1 (by decide) (by decide) (by decide)).2,
   (ocr_queue_single_holder_id ⟨{strOf "ocr_queue"}, 2, 12⟩ none (by decide)).2.2.2⟩

/-- Counterexample to C9 as stated: under capacity 2 with `"ocr_queue"`
already holding, a further acquire returns `False` when the measured
allocation (13 GiB) exceeds the threshold, so "under capacity ≥ 2 a second
acquire returns True" does not hold unconditionally. -/
theorem ocr_queue_second_acquire_memory_denied :
    2 ≤ (⟨{strOf "ocr_queue"}, 2, 12⟩ : GPUResourceManager).maxConcurrent
    ∧ strOf "ocr_queue" ∈ (⟨{strOf "ocr_queue"}, 2, 12⟩ : GPUResourceManager).currentUsers
    ∧ (acquireGpu ⟨{strOf "ocr_queue"}, 2, 12⟩ (strOf "ocr_queue") none (some 13)).1
        = false := by
  refine ⟨by decide, by decide, by decide⟩

/-! ## Two-lane in-process queue
(`backend/core/ocr_queue.py`, `backend/core/forms_queue.py`)

`InProcessOCRQueue` and `InProcessFormsQueue` each hold two
`asyncio.Queue`s; FIFO order is modelled with the head of the list as the
oldest element.  `submit_job` `put`s the descriptor into the chosen lane;
the worker loop body polls with `get_nowait` on the priority lane, then the
normal lane, and `await asyncio.sleep(1)` when both raise `QueueEmpty`. -/

structure QueueState (α : Type) where
  priorityQueue : List α
  queue : List α
  deriving DecidableEq

/-- `submit_job(..., priority)`: append the job descriptor to the chosen
lane (enqueue is non-blocking and always succeeds). -/
def submitJob {α : Type} (s : QueueState α) (jobData : α) (priority : Bool) : QueueState α :=
  if priority then { s with priorityQueue := s.priorityQueue ++ [jobData] }
  else { s with queue := s.queue ++ [jobData] }

/-- Outcome of one iteration of `_worker_loop`'s dequeue section: either a
job descriptor (with the remaining queue state) or `asyncio.sleep(1)`. -/
inductive WorkerPollResult (α : Type)
  | job (jobData : α) (s : QueueState α)
  | sleep (seconds : ℕ)
  deriving DecidableEq

/-- The dequeue decision of `_worker_loop`: `priority_queue.get_nowait()`
first; on `QueueEmpty` fall back to `queue.get_nowait()`; when both are
empty, `await asyncio.sleep(1)` and retry. -/
def workerPoll {α : Type} (s : QueueState α) : WorkerPollResult α :=
  match s.priorityQueue with
  | jobData :: rest => .job jobData ⟨rest, s.queue⟩
  | [] =>
    match s.queue with
    | jobData :: rest => .job jobData ⟨[], rest⟩
    | [] => .sleep 1

/-- The sequence of job descriptors a worker dequeues from state `s` when
no further jobs are submitted: each step is one `workerPoll`, and the
trace ends when the worker is left sleeping on two empty lanes. -/
inductive DequeueTrace {α : Type} : QueueState α → List α → Prop
  | idle (s : QueueState α) : workerPoll s = .sleep 1 → DequeueTrace s []
  | step (s : QueueState α) (j : α) (s' : QueueState α) (l : List α) :
      workerPoll s = .job j s' → DequeueTrace s' l → DequeueTrace s (j :: l)

/-- **C5.** Every dequeue decision reads the priority lane first
(non-blocking), then the normal lane, and sleeps 1 second when both are
empty; enqueues append at the back of a lane; consequently a full drain
yields all priority jobs (in FIFO order) before all normal jobs (in FIFO
order). -/
theorem dequeue_priority_first (α : Type) :
    (∀ (p : α) (pq q : List α), workerPoll ⟨p :: pq, q⟩ = .job p ⟨pq, q⟩)
    ∧ (∀ (j : α) (q : List α), workerPoll ⟨[], j :: q⟩ = .job j ⟨[], q⟩)
    ∧ workerPoll (⟨[], []⟩ : QueueState α) = .sleep 1
    ∧ (∀ (s : QueueState α) (j : α),
        (submitJob s j true).priorityQueue = s.priorityQueue ++ [j] ∧
        (submitJob s j true).queue = s.queue ∧
        (submitJob s j false).queue = s.queue ++ [j] ∧
        (submitJob s j false).priorityQueue = s.priorityQueue)
    ∧ (∀ (s : QueueState α) (l : List α), DequeueTrace s l →
        l = s.priorityQueue ++ s.queue) := by
  refine ⟨fun _ _ _ => rfl, fun _ _ => rfl, rfl, fun _ _ => ⟨rfl, rfl, rfl, rfl⟩, ?_⟩
  intro s l h
  induction h with
  | idle s hpoll =>
      cases hp : s.priorityQueue with
      | cons p rest => rw [workerPoll, hp] at hpoll; cases hpoll
      | nil =>
        cases hq : s.queue with
        | cons j rest => rw [workerPoll, hp, hq] at hpoll; cases hpoll
        | nil => simp [hp, hq]
  | step s j s' l hpoll _ ih =>
      cases hp : s.priorityQueue with
      | cons p rest =>
          rw [workerPoll, hp] at hpoll
          cases hpoll
          simp [ih, hp]
      | nil =>
        cases hq : s.queue with
        | cons j' rest =>
            rw [workerPoll, hp, hq] at hpoll
            cases hpoll
            simp [ih, hp, hq]
        | nil => rw [workerPoll, hp, hq] at hpoll; cases hpoll

/-- Witness for C5: a worker starting from one priority job `10` and one
normal job `20` dequeues `[10, 20]`, which indeed is priority lane then
normal lane. -/
theorem dequeue_priority_first_witness :
    ([10, 20] : List ℕ) =
      (⟨[10], [20]⟩ : QueueState ℕ).priorityQueue ++ (⟨[10], [20]⟩ : QueueState ℕ).queue :=
  (dequeue_priority_first ℕ).2.2.2.2 ⟨[10], [20]⟩ [10, 20]
    (DequeueTrace.step _ 10 ⟨[], [20]⟩ _ rfl
      (DequeueTrace.step _ 20 ⟨[], []⟩ _ rfl
        (DequeueTrace.idle _ rfl)))

/-! ## Job state store (`backend/services/redis_job_manager.py`)

A redis instance keyed by `job_id`; each value is the JSON object built by
`set_job_status`.  The result payload is opaque to the dispatcher, hence
the type parameter `ρ`. -/

structure JobRecord (ρ : Type) where
  status : Str
  result : Option ρ
  error : Option Str
  progress : ℤ
  deriving DecidableEq

abbrev JobStore (ρ : Type) := Str → Option (JobRecord ρ)

/-- `set_job_status(job_id, status, result=None, error=None, progress=0)`:
build the record from exactly the call's arguments and `redis_client.set`
it, overwriting whatever was stored under `job_id`.  Python's defaults are
passed explicitly by the model's call sites. -/
def set_job_status {ρ : Type} (store : JobStore ρ) (job_id : Str) (status : Str)
    (result : Option ρ) (error : Option Str) (progress : ℤ) : JobStore ρ :=
  fun k => if k = job_id then some ⟨status, result, error, progress⟩ else store k

/-- `get_job_status(job_id)`: point lookup, `None` when the key is absent. -/
def get_job_status {ρ : Type} (store : JobStore ρ) (job_id : Str) : Option (JobRecord ρ) :=
  store job_id

/-- The terminal error write of `InProcessOCRQueue._process_job`:
`set_job_status(job_id, "error", error=str(e))` — `result` and `progress`
are not passed and take the Python defaults `None` and `0`. -/
def ocrErrorWrite {ρ : Type} (store : JobStore ρ) (job_id : Str) (message : Str) :
    JobStore ρ :=
  set_job_status store job_id (strOf "error") none (some message) 0

/-- **C10.** Every state-store write replaces the whole record with one
built only from that call's arguments: the stored record does not depend
on the previous store contents, other keys are untouched, and the OCR
worker's terminal error write (which passes no `result`/`progress`) stores
`result = None` and `progress = 0`. -/
theorem set_job_status_replaces_record (ρ : Type) (store : JobStore ρ)
    (job_id status : Str) (result : Option ρ) (error : Option Str) (progress : ℤ) :
    get_job_status (set_job_status store job_id status result error progress) job_id
      = some ⟨status, result, error, progress⟩
    ∧ (∀ k, k ≠ job_id → set_job_status store job_id status result error progress k = store k)
    ∧ (∀ message, get_job_status (ocrErrorWrite store job_id message) job_id
        = some ⟨strOf "error", none, some message, 0⟩) := by
  refine ⟨?_, ?_, ?_⟩
  · unfold get_job_status set_job_status
    rw [if_pos rfl]
  · intro k hk
    unfold set_job_status
    rw [if_neg hk]
  · intro message
    unfold ocrErrorWrite get_job_status set_job_status
    rw [if_pos rfl]

/-- Witness for C10: over a store holding a completed record with a result
and progress 100 under `"j"`, the OCR error write leaves key `"x"` alone
and resets `"j"` to an error record with no result and progress 0. -/
theorem set_job_status_replaces_record_witness :
    (set_job_status (fun _ => some ⟨strOf "completed", some (), none, 100⟩)
        (strOf "j") (strOf "error") none (some (strOf "boom")) 0) (strOf "x")
      = some ⟨strOf "completed", some (), none, 100⟩
    ∧ get_job_status (ocrErrorWrite (fun _ => some ⟨strOf "completed", some (), none, 100⟩)
        (strOf "j") (strOf "boom")) (strOf "j")
      = some ⟨strOf "error", none, some (strOf "boom"), 0⟩ :=
  ⟨(set_job_status_replaces_record Unit (fun _ => some ⟨strOf "completed", some (), none, 100⟩)
      (strOf "j") (strOf "error") none (some (strOf "boom")) 0).2.1 (strOf "x") (by decide),
   (set_job_status_replaces_record Unit (fun _ => some ⟨strOf "completed", some (), none, 100⟩)
      (strOf "j") (strOf "error") none (some (strOf "boom")) 0).2.2 (strOf "boom")⟩

/-! ## Progress values written during one OCR run
(`backend/api/v1/endpoints/text_extraction.py`,
`backend/core/ocr_queue.py`, `backend/services/ocr_pipeline_service.py`) -/

/-- `int(idx / len(detections_raw) * 100)` from `full_ocr_logic`'s region
loop: the truncated percentage of regions finished before region `idx`.
Exact integer arithmetic stands in for the CPython float expression; both
give `0` at `idx = 0` and a value strictly below `100` for `idx < n`, the
facts the theorems below rest on. -/
def regionProgress (idx n : ℕ) : ℤ := ((idx * 100) / n : ℕ)

/-- Status/progress pairs of the state-store writes of one successful OCR
run with `n` detected regions, in program order: the submit endpoint's
`("pending", progress=0)` write, the worker's `("processing", progress=1)`
write after GPU acquisition, `full_ocr_logic`'s per-region
`("processing", int(idx/len*100))` writes for `idx = 0..n-1`, and the
worker's terminal `("completed", progress=100)` write. -/
def ocrJobWrites (n : ℕ) : List (Str × ℤ) :=
  (strOf "pending", 0) :: (strOf "processing", 1) ::
    ((List.range n).map (fun idx => (strOf "processing", regionProgress idx n))
      ++ [(strOf "completed", 100)])

lemma regionProgress_nonneg (idx n : ℕ) : 0 ≤ regionProgress idx n := by
  unfold regionProgress
  exact_mod_cast Nat.zero_le _

lemma regionProgress_lt_100 (idx n : ℕ) (h : idx < n) : regionProgress idx n < 100 := by
  unfold regionProgress
  have hn : 0 < n := by omega
  have hlt : idx * 100 / n < 100 := by
    rw [Nat.div_lt_iff_lt_mul hn]
    omega
  exact_mod_cast hlt

lemma regionProgress_mono (n : ℕ) {a b : ℕ} (h : a ≤ b) :
    regionProgress a n ≤ regionProgress b n := by
  unfold regionProgress
  exact_mod_cast Nat.div_le_div_right (Nat.mul_le_mul_right 100 h)

/-- **C2 (amended).** Every progress value written during a single OCR run
is an integer in `0..100`, and the per-region writes together with the
terminal write are non-decreasing; but the whole per-run sequence is *not*
monotonically non-decreasing whenever at least one region is detected: the
worker's processing write stores `progress = 1` and the first per-region
write then falls back to `int(0/n*100) = 0`. -/
theorem ocr_progress_range_and_monotonicity (n : ℕ) :
    (∀ p ∈ (ocrJobWrites n).map Prod.snd, 0 ≤ p ∧ p ≤ 100)
    ∧ List.Chain' (· ≤ ·) (((ocrJobWrites n).drop 2).map Prod.snd)
    ∧ (1 ≤ n → ¬ List.Chain' (· ≤ ·) ((ocrJobWrites n).map Prod.snd)) := by
  refine ⟨?_, ?_, ?_⟩
  · intro p hp
    rcases List.mem_map.mp hp with ⟨pr, hpr, rfl⟩
    simp only [ocrJobWrites, List.mem_cons, List.mem_append, List.mem_map,
      List.mem_singleton] at hpr
    rcases hpr with rfl | rfl | ⟨idx, hidx, rfl⟩ | rfl | h
    · exact ⟨le_refl 0, by norm_num⟩
    · constructor <;> norm_num
    · refine ⟨regionProgress_nonneg _ _, ?_⟩
      exact le_of_lt (regionProgress_lt_100 idx n (List.mem_range.mp hidx))
    · constructor <;> norm_num
    · exact absurd h (List.not_mem_nil _)
  · have hdrop : ((ocrJobWrites n).drop 2).map Prod.snd
        = (List.range n).map (fun idx => regionProgress idx n) ++ [(100 : ℤ)] := by
      simp [ocrJobWrites, List.map_append, List.map_map, Function.comp]
    rw [hdrop, List.chain'_append]
    refine ⟨?_, List.chain'_singleton _, ?_⟩
    · refine List.Pairwise.chain' ?_
      refine List.Pairwise.map _ (fun a b hab => regionProgress_mono n (le_of_lt hab)) ?_
      exact List.pairwise_lt_range n
    · intro x hx y hy
      rw [List.head?_cons, Option.mem_some_iff] at hy
      subst hy
      have hxmem : x ∈ (List.range n).map (fun idx => regionProgress idx n) :=
        List.mem_of_mem_getLast? hx
      rcases List.mem_map.mp hxmem with ⟨idx, hidx, rfl⟩
      exact le_of_lt (regionProgress_lt_100 idx n (List.mem_range.mp hidx))
  · intro hn hchain
    obtain ⟨m, rfl⟩ : ∃ m, n = m + 1 := ⟨n - 1, by omega⟩
    have hshape : (ocrJobWrites (m + 1)).map Prod.snd
        = 0 :: 1 :: regionProgress 0 (m + 1) ::
            (((List.range m).map (fun i => regionProgress (i + 1) (m + 1)))
              ++ [(100 : ℤ)]) := by
      simp [ocrJobWrites, List.range_succ_eq_map, List.map_append, List.map_map,
        Function.comp]
    rw [hshape] at hchain
    have h01 := (List.chain'_cons.mp (List.chain'_cons.mp hchain).2).1
    have : regionProgress 0 (m + 1) = 0 := by
      unfold regionProgress
      simp
    rw [this] at h01
    norm_num at h01

/-- Counterexample to C2 as stated: with a single detected region the
per-run progress sequence is `0, 1, 0, 100`, which is not monotonically
non-decreasing. -/
theorem ocr_progress_not_monotone_example :
    ¬ List.Chain' (· ≤ ·) ((ocrJobWrites 1).map Prod.snd) := by
  intro h
  have hshape : (ocrJobWrites 1).map Prod.snd = [0, 1, 0, 100] := by decide
  rw [hshape] at h
  have h01 := (List.chain'_cons.mp (List.chain'_cons.mp h).2).1
  norm_num at h01

/-- Witness for C2's amended theorem at `n = 2`: the range bound for the
head write and non-monotonicity of the full sequence hold there. -/
theorem ocr_progress_range_and_monotonicity_witness :
    (0 ≤ ((strOf "pending", (0 : ℤ))).2 ∧ ((strOf "pending", (0 : ℤ))).2 ≤ 100)
    ∧ ¬ List.Chain' (· ≤ ·) ((ocrJobWrites 2).map Prod.snd) :=
  ⟨(ocr_progress_range_and_monotonicity 2).1 _ (by decide),
   (ocr_progress_range_and_monotonicity 2).2.2 (by decide)⟩

/-! ## Order of operations inside `_process_job`
(`backend/core/ocr_queue.py` lines 101–145,
`backend/core/forms_queue.py` lines 113–173)

Each `_process_job` body is linear code under one worker; it is modelled as
the sequence of externally observable events it performs, in program
order. -/

inductive QueueEvent
  /-- `await gpu_manager.wait_for_gpu(service, worker_id=…, timeout=300.0)` -/
  | gpuWait (service : Str) (workerId : Option ℕ)
  /-- `set_job_status(job_id, status, …, progress=p)` -/
  | statusWrite (status : Str) (progress : ℤ)
  /-- `run_in_executor(None, <inference callable>, …)` -/
  | runInference
  /-- `clear_gpu_memory()` (forms queue only) -/
  | clearMemory
  /-- `await gpu_manager.release_gpu(service, worker_id=…)` -/
  | gpuRelease (service : Str) (workerId : Option ℕ)
  deriving DecidableEq

/-- Events of one `InProcessOCRQueue._process_job` run, as a function of
whether `wait_for_gpu` succeeded and whether `full_ocr_logic` returned
normally.  The worker calls `wait_for_gpu("ocr_queue", timeout=300.0)`
*before* writing `("processing", progress=1)`; on a failed acquire it
raises, the `except` block writes the error record, and the `finally`
block releases only when the GPU was acquired. -/
def ocrProcessJobTrace (gpuAcquired inferOk : Bool) : List QueueEvent :=
  [QueueEvent.gpuWait (strOf "ocr_queue") none]
  ++ (if gpuAcquired then
        [QueueEvent.statusWrite (strOf "processing") 1, QueueEvent.runInference]
        ++ (if inferOk then [QueueEvent.statusWrite (strOf "completed") 100]
            else [QueueEvent.statusWrite (strOf "error") 0])
      else [QueueEvent.statusWrite (strOf "error") 0])
  ++ (if gpuAcquired then [QueueEvent.gpuRelease (strOf "ocr_queue") none] else [])

/-- Events of one `InProcessFormsQueue._process_job` run for worker
`workerId`: `wait_for_gpu("forms_queue", worker_id=worker_id)` comes first,
then `clear_gpu_memory()`, then the `("processing", progress=1)` write; the
`finally` block always clears GPU memory again and releases when
acquired. -/
def formsProcessJobTrace (workerId : ℕ) (gpuAcquired inferOk : Bool) : List QueueEvent :=
  [QueueEvent.gpuWait (strOf "forms_queue") (some workerId)]
  ++ (if gpuAcquired then
        [QueueEvent.clearMemory,
         QueueEvent.statusWrite (strOf "processing") 1, QueueEvent.runInference]
        ++ (if inferOk then [QueueEvent.statusWrite (strOf "completed") 100]
            else [QueueEvent.statusWrite (strOf "error") 0])
      else [QueueEvent.statusWrite (strOf "error") 0])
  ++ [QueueEvent.clearMemory]
  ++ (if gpuAcquired then [QueueEvent.gpuRelease (strOf "forms_queue") (some workerId)]
      else [])

/-- Is this event a `wait_for_gpu` call? -/
def isGpuWait : QueueEvent → Bool
  | QueueEvent.gpuWait _ _ => true
  | _ => false

/-- **C3 (amended).** In both worker bodies the very first event is the
`wait_for_gpu` call — no state-store write at all precedes it, so the job
record still holds the submit-time `pending` write while the worker waits
for GPU admission — and the `("processing", progress=1)` write happens
(only) after a successful acquire. -/
theorem processing_write_follows_gpu_wait (workerId : ℕ) (gpuAcquired inferOk : Bool) :
    (ocrProcessJobTrace gpuAcquired inferOk).takeWhile (fun e => !(isGpuWait e)) = []
    ∧ (formsProcessJobTrace workerId gpuAcquired inferOk).takeWhile
        (fun e => !(isGpuWait e)) = []
    ∧ (gpuAcquired = true →
        [QueueEvent.gpuWait (strOf "ocr_queue") none,
         QueueEvent.statusWrite (strOf "processing") 1].Sublist
          (ocrProcessJobTrace gpuAcquired inferOk))
    ∧ (gpuAcquired = true →
        [QueueEvent.gpuWait (strOf "forms_queue") (some workerId),
         QueueEvent.statusWrite (strOf "processing") 1].Sublist
          (formsProcessJobTrace workerId gpuAcquired inferOk))
    ∧ (gpuAcquired = false →
        QueueEvent.statusWrite (strOf "processing") 1 ∉
          ocrProcessJobTrace gpuAcquired inferOk) := by
  refine ⟨?_, ?_, ?_, ?_, ?_⟩
  · cases gpuAcquired <;> cases inferOk <;> rfl
  · cases gpuAcquired <;> cases inferOk <;> rfl
  · intro h
    subst h
    cases inferOk <;>
      · unfold ocrProcessJobTrace
        simp only [if_true, List.cons_append, List.nil_append]
        exact (List.cons_sublist_cons.mpr (List.cons_sublist_cons.mpr
          (List.nil_sublist _)))
  · intro h
    subst h
    cases inferOk <;>
      · unfold formsProcessJobTrace
        simp only [if_true, List.cons_append, List.nil_append]
        refine List.cons_sublist_cons.mpr ?_
        refine List.Sublist.cons _ ?_
        exact List.cons_sublist_cons.mpr (List.nil_sublist _)
  · intro h
    subst h
    cases inferOk <;> decide

/-- Witness for C3's amended theorem: concrete successful OCR and forms
runs (worker 0) have the GPU wait as their first event, followed
eventually by the processing write. -/
theorem processing_write_follows_gpu_wait_witness :
    (ocrProcessJobTrace true true).takeWhile (fun e => !(isGpuWait e)) = []
    ∧ [QueueEvent.gpuWait (strOf "ocr_queue") none,
       QueueEvent.statusWrite (strOf "processing") 1].Sublist (ocrProcessJobTrace true true)
    ∧ [QueueEvent.gpuWait (strOf "forms_queue") (some 0),
       QueueEvent.statusWrite (strOf "processing") 1].Sublist
        (formsProcessJobTrace 0 true true) :=
  ⟨(processing_write_follows_gpu_wait 0 true true).1,
   (processing_write_follows_gpu_wait 0 true true).2.2.1 rfl,
   (processing_write_follows_gpu_wait 0 true true).2.2.2.1 rfl⟩

/-- Counterexample to C3 as stated: in a successful OCR run no
`("processing", 1)` write precedes the `wait_for_gpu` event — the
processing write does not come first, the acquire does. -/
theorem processing_write_not_before_gpu_wait :
    ¬ [QueueEvent.statusWrite (strOf "processing") 1,
       QueueEvent.gpuWait (strOf "ocr_queue") none].Sublist
        (ocrProcessJobTrace true true) := by
  decide

/-! ## Upload validation and job submission
(`backend/core/config.py`, `backend/utils/image/validation.py`,
`backend/api/v1/endpoints/text_extraction.py`) -/

/-- `settings.MAX_FILE_SIZE = 10 * 1024 * 1024`. -/
def MAX_FILE_SIZE : ℕ := 10 * 1024 * 1024

/-- `settings.ALLOWED_EXTENSIONS` (a Python set; only membership is used). -/
def ALLOWED_EXTENSIONS : List Str :=
  [strOf ".jpg", strOf ".jpeg", strOf ".png", strOf ".bmp", strOf ".tiff", strOf ".webp"]

/-- `settings.ALLOWED_MIME_TYPES` (a Python set; only membership is used). -/
def ALLOWED_MIME_TYPES : List Str :=
  [strOf "image/jpeg", strOf "image/jpg", strOf "image/png",
   strOf "image/bmp", strOf "image/tiff", strOf "image/webp"]

/-- ASCII `str.lower` on one character (all inputs of interest are ASCII). -/
def toLowerAscii (c : Char) : Char :=
  if 'A' ≤ c ∧ c ≤ 'Z' then Char.ofNat (c.toNat + 32) else c

/-- Python `str.split(sep)` for a one-character separator. -/
def splitOnChar (sep : Char) : Str → List Str
  | [] => [[]]
  | c :: rest =>
    if c = sep then [] :: splitOnChar sep rest
    else
      match splitOnChar sep rest with
      | s :: ss => (c :: s) :: ss
      | [] => [[c]]

/-- `f".{file.filename.split('.')[-1].lower()}"`. -/
def fileExt (filename : Str) : Str :=
  '.' :: ((splitOnChar '.' filename).getLastD []).map toLowerAscii

/-- The parts of a FastAPI `UploadFile` the submission path reads: the
declared content type, the client filename, and the byte count of the
uploaded payload (standing in for the bytes themselves). -/
structure UploadFile where
  content_type : Option Str
  filename : Option Str
  size : ℕ
  deriving DecidableEq

/-- `validate_image_file(file)`: raise `ValidationError` when the declared
content type is missing/empty or does not start with `"image/"`; when the
MIME type is not allowed; or when a non-empty filename has a disallowed
extension.  File size is *not* examined here.  (The Python messages append
a `", ".join` over a set, whose order is unspecified; the model keeps the
fixed message prefix.) -/
def validate_image_file (f : UploadFile) : Except Str Unit :=
  match f.content_type with
  | none => .error (strOf "Invalid file type. Please upload an image file.")
  | some ct =>
    if ct = [] ∨ ¬ (strOf "image/").isPrefixOf ct then
      .error (strOf "Invalid file type. Please upload an image file.")
    else if ct ∉ ALLOWED_MIME_TYPES then
      .error (strOf "Unsupported image type.")
    else
      match f.filename with
      | some fn =>
        if fn ≠ [] then
          if fileExt fn ∉ ALLOWED_EXTENSIONS then
            .error (strOf "Unsupported file extension.")
          else .ok ()
        else .ok ()
      | none => .ok ()

/-- `validate_image_bytes(image_bytes)` — called by `full_ocr_logic` at
processing time, not at submission: empty payloads and payloads above
`settings.MAX_FILE_SIZE` raise `ValidationError`.  (The "too large"
message interpolates the limit in MB; the model keeps the prefix.) -/
def validate_image_bytes (size : ℕ) : Except Str Unit :=
  if size = 0 then .error (strOf "Empty file uploaded")
  else if size > MAX_FILE_SIZE then .error (strOf "File too large.")
  else .ok ()

/-- The job dict `submit_job` builds (`submitted_at` omitted; the payload
bytes are represented by their count). -/
structure OcrJobData where
  filename : Str
  imageSize : ℕ
  job_id : Str
  deriving DecidableEq

/-- `filename = file.filename or "uploaded_image"`. -/
def ocrFilename (f : UploadFile) : Str :=
  match f.filename with
  | some fn => if fn = [] then strOf "uploaded_image" else fn
  | none => strOf "uploaded_image"

/-- HTTP outcome of `submit_ocr_job`: 200 with the job id, or 400 with
`error_detail`. -/
inductive SubmitResponse
  | accepted (job_id : Str)
  | badRequest (error_detail : Str)
  deriving DecidableEq

/-- The state `submit_ocr_job` touches: the job store and the OCR queue. -/
structure OcrApiState (ρ : Type) where
  store : JobStore ρ
  ocrQueue : QueueState OcrJobData

/-- `submit_ocr_job(file)`: `validate_image_file`, read the bytes, draw a
job id, `set_job_status(job_id, "pending", progress=0)`, enqueue into the
normal lane, and answer 200; any raised validation error is caught and
answered as 400 with `error_detail`, leaving store and queue untouched. -/
def submit_ocr_job (ρ : Type) (f : UploadFile) (job_id : Str) (st : OcrApiState ρ) :
    SubmitResponse × OcrApiState ρ :=
  match validate_image_file f with
  | .error e => (.badRequest e, st)
  | .ok _ =>
    let store' := set_job_status st.store job_id (strOf "pending") none none 0
    let queue' := submitJob st.ocrQueue ⟨ocrFilename f, f.size, job_id⟩ false
    (.accepted job_id, ⟨store', queue'⟩)

/-- **C6 (amended).** Before enqueue, `submit_ocr_job` checks the file
extension and the declared MIME type: any such violation yields HTTP 400
with `error_detail`, no job record and no enqueue; validation at
submission is independent of the upload's size — the `size ≤ MAX_FILE_SIZE`
rule is enforced only later, by `validate_image_bytes` inside
`full_ocr_logic`, after the job has been enqueued with a `pending`
record. -/
theorem submission_validation_scope (ρ : Type) (f : UploadFile) (job_id : Str)
    (st : OcrApiState ρ) :
    (∀ e, validate_image_file f = .error e →
        submit_ocr_job ρ f job_id st = (.badRequest e, st))
    ∧ (validate_image_file f = .ok () →
        (submit_ocr_job ρ f job_id st).1 = .accepted job_id
        ∧ (submit_ocr_job ρ f job_id st).2.store job_id
            = some ⟨strOf "pending", none, none, 0⟩
        ∧ (submit_ocr_job ρ f job_id st).2.ocrQueue.queue
            = st.ocrQueue.queue ++ [⟨ocrFilename f, f.size, job_id⟩])
    ∧ (∀ size', validate_image_file ⟨f.content_type, f.filename, size'⟩
          = validate_image_file f)
    ∧ (∀ size, MAX_FILE_SIZE < size →
        validate_image_bytes size = .error (strOf "File too large.")) := by
  refine ⟨?_, ?_, ?_, ?_⟩
  · intro e he
    unfold submit_ocr_job
    rw [he]
  · intro hok
    unfold submit_ocr_job
    rw [hok]
    refine ⟨rfl, ?_, rfl⟩
    unfold set_job_status
    dsimp only
    rw [if_pos rfl]
  · intro size'
    unfold validate_image_file
    rfl
  · intro size hsize
    unfold validate_image_bytes
    rw [if_neg (by omega), if_pos hsize]

/-- Witness for C6's amended theorem: a bad-MIME upload is rejected with a
400 and state untouched, and a 12 MiB payload fails the (processing-time)
size check. -/
theorem submission_validation_scope_witness :
    submit_ocr_job Unit ⟨some (strOf "text/plain"), some (strOf "a.png"), 4⟩
        (strOf "job-1") ⟨fun _ => none, ⟨[], []⟩⟩
      = (.badRequest (strOf "Invalid file type. Please upload an image file."),
         ⟨fun _ => none, ⟨[], []⟩⟩)
    ∧ validate_image_bytes (12 * 1024 * 1024) = .error (strOf "File too large.") :=
  ⟨(submission_validation_scope Unit ⟨some (strOf "text/plain"), some (strOf "a.png"), 4⟩
      (strOf "job-1") ⟨fun _ => none, ⟨[], []⟩⟩).1 _ (by rfl),
   (submission_validation_scope Unit ⟨some (strOf "text/plain"), some (strOf "a.png"), 4⟩
      (strOf "job-1") ⟨fun _ => none, ⟨[], []⟩⟩).2.2.2 _ (by norm_num [MAX_FILE_SIZE])⟩

/-- Counterexample to C6 as stated: an upload whose size exceeds
`MAX_FILE_SIZE` but whose MIME type and extension are allowed is accepted
at submission — a `pending` record is created and the job is enqueued, so
the size rule is not checked before enqueue. -/
theorem oversized_upload_is_enqueued :
    MAX_FILE_SIZE <
      (⟨some (strOf "image/png"), some (strOf "a.png"), 10 * 1024 * 1024 + 1⟩ :
        UploadFile).size
    ∧ (submit_ocr_job Unit
        ⟨some (strOf "image/png"), some (strOf "a.png"), 10 * 1024 * 1024 + 1⟩
        (strOf "job-1") ⟨fun _ => none, ⟨[], []⟩⟩).1 = .accepted (strOf "job-1")
    ∧ (submit_ocr_job Unit
        ⟨some (strOf "image/png"), some (strOf "a.png"), 10 * 1024 * 1024 + 1⟩
        (strOf "job-1") ⟨fun _ => none, ⟨[], []⟩⟩).2.store (strOf "job-1")
        = some ⟨strOf "pending", none, none, 0⟩
    ∧ (submit_ocr_job Unit
        ⟨some (strOf "image/png"), some (strOf "a.png"), 10 * 1024 * 1024 + 1⟩
        (strOf "job-1") ⟨fun _ => none, ⟨[], []⟩⟩).2.ocrQueue.queue ≠ [] := by
  refine ⟨by norm_num [MAX_FILE_SIZE], by decide, by decide, by decide⟩

/-! ## JSON repair (`backend/utils/response_parser.py`)

`extract_and_parse_json` pulls the fenced block out of the model output and
hands it to `clean_json_string`, which is the repair step: unescape,
`generic_json_repair` by regular expressions, and `json.dumps(..., indent=2)`.
The regular expressions are compiled to explicit character scanners with the
same leftmost, non-overlapping `re.findall` semantics; Python dicts become
insertion-ordered association lists with update-in-place. -/

/-- Python `\s` on the ASCII plane (all characters of interest). -/
def isPySpace (c : Char) : Bool :=
  c = ' ' ∨ c = '\t' ∨ c = '\n' ∨ c = '\r' ∨ c = '\x0b' ∨ c = '\x0c'

/-- Python `str.strip()`. -/
def pyStrip (s : Str) : Str :=
  ((s.dropWhile isPySpace).reverse.dropWhile isPySpace).reverse

/-- Python `str.replace(pat, rep)` (left-to-right, non-overlapping);
`skip` counts match characters still to pass over after emitting a
replacement. -/
def replaceAllAux (pat rep : Str) : ℕ → Str → Str
  | _, [] => []
  | Nat.succ k, _ :: rest => replaceAllAux pat rep k rest
  | 0, c :: rest =>
    if pat ≠ [] ∧ pat.isPrefixOf (c :: rest) then
      rep ++ replaceAllAux pat rep (pat.length - 1) rest
    else c :: replaceAllAux pat rep 0 rest

def replaceAll (pat rep s : Str) : Str := replaceAllAux pat rep 0 s

/-- `text.replace('\\n', '\n').replace('\\"', '"')` — the first line of
`clean_json_string`. -/
def pyUnescape (text : Str) : Str :=
  replaceAll ['\\', '"'] ['"'] (replaceAll ['\\', 'n'] ['\n'] text)

/-- One attempt of `"([^"]+)":\s*"([^"]*)"` with the opening quote already
consumed; `l` is the remaining text. Returns key, value and the number of
characters of `l` the match consumed. -/
def tryKV (l : Str) : Option (Str × Str × ℕ) :=
  let key := l.takeWhile (fun c => c ≠ '"')
  if key = [] then none
  else
    match l.drop key.length with
    | '"' :: ':' :: r2 =>
      let sp := r2.takeWhile isPySpace
      match r2.drop sp.length with
      | '"' :: r3 =>
        let v := r3.takeWhile (fun c => c ≠ '"')
        match r3.drop v.length with
        | '"' :: _ => some (key, v, key.length + sp.length + v.length + 4)
        | _ => none
      | _ => none
    | _ => none

/-- `re.findall(r'"([^"]+)":\s*"([^"]*)"', text)`: try the pattern at each
position left to right; after a match, resume after its last character.
`skip` counts characters of an accepted match still to pass over. -/
def scanKV : ℕ → Str → List (Str × Str)
  | _, [] => []
  | Nat.succ k, _ :: rest => scanKV k rest
  | 0, c :: rest =>
    if c = '"' then
      match tryKV rest with
      | some (key, v, used) => (key, v) :: scanKV used rest
      | none => scanKV 0 rest
    else scanKV 0 rest

def findSimpleKV (text : Str) : List (Str × Str) := scanKV 0 text

/-- Greedy parse of the nested pattern's body
`([^{}]*(?:\{[^{}]*\}[^{}]*)*)` up to the terminating depth-0 `\x7d`
(which is not part of the content); `inner` records whether the scan is
inside a single-level brace group.  A second-level `\x7b`, or running out
of input, fails the whole match, as it does for the regex. -/
def contentScan : Bool → Str → Option Str
  | _, [] => none
  | true, c :: rest =>
    if c = '\x7d' then (contentScan false rest).map (fun s => c :: s)
    else if c = '\x7b' then none
    else (contentScan true rest).map (fun s => c :: s)
  | false, c :: rest =>
    if c = '\x7d' then some []
    else if c = '\x7b' then (contentScan true rest).map (fun s => c :: s)
    else (contentScan false rest).map (fun s => c :: s)

/-- One attempt of `"([^"]+)":\s*\{([^{}]*(?:\{[^{}]*\}[^{}]*)*)\}` with
the opening quote already consumed. -/
def tryNested (l : Str) : Option (Str × Str × ℕ) :=
  let key := l.takeWhile (fun c => c ≠ '"')
  if key = [] then none
  else
    match l.drop key.length with
    | '"' :: ':' :: r2 =>
      let sp := r2.takeWhile isPySpace
      match r2.drop sp.length with
      | '\x7b' :: r3 =>
        match contentScan false r3 with
        | some content => some (key, content, key.length + sp.length + content.length + 4)
        | none => none
      | _ => none
    | _ => none

/-- `re.findall(nested_pattern, text, re.DOTALL)` (the flag only affects
`.`, which the pattern does not contain). -/
def scanNested : ℕ → Str → List (Str × Str)
  | _, [] => []
  | Nat.succ k, _ :: rest => scanNested k rest
  | 0, c :: rest =>
    if c = '"' then
      match tryNested rest with
      | some (key, content, used) => (key, content) :: scanNested used rest
      | none => scanNested 0 rest
    else scanNested 0 rest

def findNestedKV (text : Str) : List (Str × Str) := scanNested 0 text

/-- A Python dict as an insertion-ordered association list:
`d[k] = v` updates in place when the key exists, else appends. -/
def dictInsert {β : Type} (d : List (Str × β)) (k : Str) (v : β) : List (Str × β) :=
  match d with
  | [] => [(k, v)]
  | (k', v') :: rest => if k' = k then (k, v) :: rest else (k', v') :: dictInsert rest k v

def dictLookup {β : Type} (d : List (Str × β)) (k : Str) : Option β :=
  match d with
  | [] => none
  | (k', v') :: rest => if k' = k then some v' else dictLookup rest k

/-- Values stored in `all_data`: a string or a nested `{str: str}` object
(the only shapes the extraction produces). -/
inductive AVal
  | s (v : Str)
  | obj (fields : List (Str × Str))
  deriving DecidableEq

/-- Values in `organized_data` / `numbered_items` / `regular_items`: an
`all_data` value or the array collecting values of a duplicate key. -/
inductive OVal
  | a (x : AVal)
  | arr (items : List AVal)
  deriving DecidableEq

/-- Entries of the repaired top-level object: a plain value or the
`"entities"` list of entity objects. -/
inductive FVal
  | val (x : OVal)
  | entities (es : List (List (Str × OVal)))
  deriving DecidableEq

/-- Python `str.find` (first index, or `None` for Python's `-1`). -/
def strFindAux (pat : Str) : ℕ → Str → Option ℕ
  | i, [] => if pat = [] then some i else none
  | i, c :: rest => if pat.isPrefixOf (c :: rest) then some i else strFindAux pat (i + 1) rest

def strFind (text pat : Str) : Option ℕ := strFindAux pat 0 text

def natDist (a b : ℕ) : ℕ := max a b - min a b

/-- `is_related_field(entity_id, field_key, original_text)`: both
`f'"{entity_id}"'` and `f'"{field_key}"'` occur in the text and their first
occurrences are within 500 characters. -/
def is_related_field (entity_id field_key original_text : Str) : Bool :=
  match strFind original_text ('"' :: entity_id ++ ['"']),
        strFind original_text ('"' :: field_key ++ ['"']) with
  | some entityPos, some fieldPos => natDist entityPos fieldPos < 500
  | _, _ => false

/-- Python `\w` on the ASCII plane. -/
def isWordChar (c : Char) : Bool := c.isAlpha ∨ c.isDigit ∨ c = '_'

/-- `re.sub(p+, rep)` for a character class `p`: each maximal run of
`p`-characters becomes one `rep`. -/
def collapseRunsAux (p : Char → Bool) (rep : Char) : Bool → Str → Str
  | _, [] => []
  | inRun, c :: rest =>
    if p c then
      (if inRun then collapseRunsAux p rep true rest
       else rep :: collapseRunsAux p rep true rest)
    else c :: collapseRunsAux p rep false rest

def collapseRuns (p : Char → Bool) (rep : Char) (s : Str) : Str :=
  collapseRunsAux p rep false s

/-- Python `str.strip(t)` for a single strip character. -/
def stripChar (t : Char) (s : Str) : Str :=
  ((s.dropWhile (· = t)).reverse.dropWhile (· = t)).reverse

/-- `normalize_field_name`: lower-case, drop characters outside `[\w\s]`,
strip, replace whitespace runs by `_`, collapse `_` runs, strip `_`. -/
def normalize_field_name (field_name : Str) : Str :=
  let lowered := field_name.map toLowerAscii
  let noSpecial := lowered.filter (fun c => isWordChar c ∨ isPySpace c)
  let underscored := collapseRuns isPySpace '_' (pyStrip noSpecial)
  let collapsed := collapseRuns (fun c => c = '_') '_' underscored
  stripChar '_' collapsed

/-- Python `str.isdigit` on the ASCII plane (empty string is not a digit
string). -/
def pyIsDigit (s : Str) : Bool := s ≠ [] ∧ s.all Char.isDigit

/-- Python string `<` (lexicographic by code point). -/
def strLt : Str → Str → Bool
  | [], [] => false
  | [], _ :: _ => true
  | _ :: _, [] => false
  | a :: as, b :: bs => if a < b then true else if b < a then false else strLt as bs

def insertSorted (x : Str) : List Str → List Str
  | [] => [x]
  | y :: ys => if strLt y x then y :: insertSorted x ys else x :: y :: ys

/-- Python `sorted` on strings (ascending). -/
def sortedStrs (l : List Str) : List Str := l.foldr insertSorted []

/-- Steps 1–2 of `generic_json_repair`: `all_data` after storing all simple
key/value pairs and then all nested objects (later assignments to the same
key overwrite in place, Python-dict style). -/
def allData (text : Str) : List (Str × AVal) :=
  let simpleStage := (findSimpleKV text).foldl
    (fun d p => dictInsert d (pyStrip p.1) (AVal.s (pyStrip p.2))) []
  (findNestedKV text).foldl
    (fun d p =>
      let nestedObj := (findSimpleKV p.2).foldl
        (fun o q => dictInsert o (pyStrip q.1) (pyStrip q.2)) []
      dictInsert d (pyStrip p.1) (AVal.obj nestedObj))
    simpleStage

/-- `key_counts`: occurrences of each key of `all_data.keys()`. -/
def keyCounts (d : List (Str × AVal)) : List (Str × ℕ) :=
  d.foldl (fun c p => dictInsert c p.1 ((dictLookup c p.1).getD 0 + 1)) []

/-- Step 3 of `generic_json_repair`: `organized_data`, converting
duplicate-counted keys to arrays.  (The `some _` non-array case cannot
occur: an entry already present under a key counted more than once is
always the accumulating list.) -/
def organizedData (text : Str) : List (Str × OVal) :=
  let d := allData text
  let counts := keyCounts d
  d.foldl
    (fun od p =>
      if 1 < (dictLookup counts p.1).getD 0 then
        match dictLookup od p.1 with
        | some (OVal.arr xs) => dictInsert od p.1 (OVal.arr (xs ++ [p.2]))
        | some _ => dictInsert od p.1 (OVal.arr [p.2])
        | none => dictInsert od p.1 (OVal.arr [p.2])
      else dictInsert od p.1 (OVal.a p.2))
    []

/-- `numbered_items`: the entries whose key `isdigit()` (a dict built by
iteration; keys are distinct, so it is the order-preserving filter). -/
def numberedItems (text : Str) : List (Str × OVal) :=
  (organizedData text).filter (fun p => pyIsDigit p.1)

/-- `regular_items`: the remaining entries. -/
def regularItems (text : Str) : List (Str × OVal) :=
  (organizedData text).filter (fun p => !(pyIsDigit p.1))

/-- One entity of step 4: `{"id": num}`, plus `primary_value` when the
numbered value is a string, plus every related regular field under its
normalised name. -/
def buildEntity (text : Str) (numbered regular : List (Str × OVal)) (num : Str) :
    List (Str × OVal) :=
  let entity := [(strOf "id", OVal.a (AVal.s num))]
  let entity :=
    match dictLookup numbered num with
    | some (OVal.a (AVal.s sv)) =>
        dictInsert entity (strOf "primary_value") (OVal.a (AVal.s sv))
    | _ => entity
  regular.foldl
    (fun e p =>
      if is_related_field num p.1 text then
        dictInsert e (normalize_field_name p.1) p.2
      else e)
    entity

/-- `generic_json_repair(text)`: the repaired top-level object
(`final_data`), as an insertion-ordered dict. -/
def generic_json_repair (text : Str) : List (Str × FVal) :=
  let numbered := numberedItems text
  let regular := regularItems text
  let finalData : List (Str × FVal) :=
    if numbered ≠ [] then
      let entities := (sortedStrs (numbered.map Prod.fst)).map
        (buildEntity text numbered regular)
      [(strOf "entities", FVal.entities entities)]
    else []
  regular.foldl
    (fun fd p =>
      if (numbered.map Prod.fst).any (fun num => is_related_field num p.1 text) then fd
      else dictInsert fd (normalize_field_name p.1) (FVal.val p.2))
    finalData

/-! ### `json.dumps(..., indent=2)` for the repaired object

CPython's serialiser with `indent=2` and the default separators
`(',', ': ')`; `ensure_ascii=True` escaping, with surrogate pairs for code
points beyond the BMP. -/

def hexDigit (n : ℕ) : Char :=
  if n < 10 then Char.ofNat ('0'.toNat + n) else Char.ofNat ('a'.toNat + (n - 10))

def hex4 (n : ℕ) : Str :=
  [hexDigit (n / 4096 % 16), hexDigit (n / 256 % 16), hexDigit (n / 16 % 16),
   hexDigit (n % 16)]

/-- `json.dumps` escaping of one character. -/
def escChar (c : Char) : Str :=
  if c = '"' then ['\\', '"']
  else if c = '\\' then ['\\', '\\']
  else if c = '\n' then ['\\', 'n']
  else if c = '\t' then ['\\', 't']
  else if c = '\r' then ['\\', 'r']
  else if c = '\x08' then ['\\', 'b']
  else if c = '\x0c' then ['\\', 'f']
  else if c.toNat < 0x20 ∨ 0x7e < c.toNat then
    if c.toNat < 0x10000 then '\\' :: 'u' :: hex4 c.toNat
    else
      let v := c.toNat - 0x10000
      ('\\' :: 'u' :: hex4 (0xd800 + v / 0x400)) ++ '\\' :: 'u' :: hex4 (0xdc00 + v % 0x400)
  else [c]

def escStr (s : Str) : Str := (s.map escChar).flatten

/-- A serialised JSON string literal. -/
def dumpsStrLeaf (s : Str) : Str := '"' :: escStr s ++ ['"']

/-- Newline plus the indentation of nesting level `lvl`. -/
def nlIndent (lvl : ℕ) : Str := '\n' :: List.replicate (2 * lvl) ' '

/-- The member list of a brace/bracket construct: each member on its own
line one level deeper, `','` separators. -/
def joinItems (lvl : ℕ) : List Str → Str
  | [] => []
  | [it] => nlIndent (lvl + 1) ++ it
  | it :: rest => nlIndent (lvl + 1) ++ it ++ ',' :: joinItems lvl rest

/-- Layout of a brace/bracket construct whose members are already
serialised: `indent=2` puts every member on its own line, one level
deeper, with `','` separators, and the closing character on its own line
at the construct's level; an empty construct collapses. -/
def renderBraced (openC closeC : Char) (lvl : ℕ) (items : List Str) : Str :=
  match items with
  | [] => [openC, closeC]
  | _ => openC :: joinItems lvl items ++ nlIndent lvl ++ [closeC]

def dumpsAVal (lvl : ℕ) : AVal → Str
  | AVal.s v => dumpsStrLeaf v
  | AVal.obj fields =>
      renderBraced '\x7b' '\x7d' lvl
        (fields.map (fun p => dumpsStrLeaf p.1 ++ ':' :: ' ' :: dumpsStrLeaf p.2))

def dumpsOVal (lvl : ℕ) : OVal → Str
  | OVal.a x => dumpsAVal lvl x
  | OVal.arr items => renderBraced '[' ']' lvl (items.map (dumpsAVal (lvl + 1)))

def dumpsEntity (lvl : ℕ) (fields : List (Str × OVal)) : Str :=
  renderBraced '\x7b' '\x7d' lvl
    (fields.map (fun p => dumpsStrLeaf p.1 ++ ':' :: ' ' :: dumpsOVal (lvl + 1) p.2))

def dumpsFVal (lvl : ℕ) : FVal → Str
  | FVal.val x => dumpsOVal lvl x
  | FVal.entities es => renderBraced '[' ']' lvl (es.map (dumpsEntity (lvl + 1)))

/-- `json.dumps(final_data, indent=2)`. -/
def dumpsFinal (final : List (Str × FVal)) : Str :=
  renderBraced '\x7b' '\x7d' 0
    (final.map (fun p => dumpsStrLeaf p.1 ++ ':' :: ' ' :: dumpsFVal 1 p.2))

/-- `clean_json_string(text)` — the repair step of the form-parse adapter:
unescape `\\n`/`\\"`, apply `generic_json_repair` to the unescaped text,
and re-serialise with `json.dumps(..., indent=2)`.  (The surrounding
`try/except` fallback cannot fire in the model: the repair is total.) -/
def clean_json_string (text : Str) : Str :=
  dumpsFinal (generic_json_repair (pyUnescape text))

/-! ### Dict lemmas

`all_data` is a Python dict, so its keys are pairwise distinct; therefore
every `key_counts` entry is `1` and the duplicate branch of step 3 never
runs. -/

def dictKeys {β : Type} (d : List (Str × β)) : List Str := d.map Prod.fst

lemma dictLookup_cons {β : Type} (k' : Str) (v' : β) (rest : List (Str × β)) (k : Str) :
    dictLookup ((k', v') :: rest) k = if k' = k then some v' else dictLookup rest k := rfl

lemma dictInsert_cons {β : Type} (k' : Str) (v' : β) (rest : List (Str × β)) (k : Str) (v : β) :
    dictInsert ((k', v') :: rest) k v =
      if k' = k then (k, v) :: rest else (k', v') :: dictInsert rest k v := rfl

lemma dictKeys_cons {β : Type} (p : Str × β) (rest : List (Str × β)) :
    dictKeys (p :: rest) = p.1 :: dictKeys rest := rfl

lemma dictLookup_eq_none {β : Type} (d : List (Str × β)) (k : Str) :
    dictLookup d k = none ↔ k ∉ dictKeys d := by
  induction d with
  | nil => simp [dictLookup, dictKeys]
  | cons p rest ih =>
      obtain ⟨k', v'⟩ := p
      rw [dictLookup_cons, dictKeys_cons, List.mem_cons, not_or]
      by_cases h : k' = k
      · subst h
        simp
      · rw [if_neg h, ih]
        constructor
        · exact fun hh => ⟨fun he => h he.symm, hh⟩
        · exact fun hh => hh.2

lemma dictLookup_append {β : Type} (d₁ d₂ : List (Str × β)) (k : Str) :
    dictLookup (d₁ ++ d₂) k =
      match dictLookup d₁ k with
      | some v => some v
      | none => dictLookup d₂ k := by
  induction d₁ with
  | nil => simp [dictLookup]
  | cons p rest ih =>
      obtain ⟨k', v'⟩ := p
      rw [List.cons_append, dictLookup_cons, dictLookup_cons]
      by_cases h : k' = k
      · rw [if_pos h, if_pos h]
      · rw [if_neg h, if_neg h, ih]

lemma dictInsert_of_not_mem {β : Type} (d : List (Str × β)) (k : Str) (v : β)
    (h : k ∉ dictKeys d) : dictInsert d k v = d ++ [(k, v)] := by
  induction d with
  | nil => rfl
  | cons p rest ih =>
      obtain ⟨k', v'⟩ := p
      rw [dictKeys_cons, List.mem_cons, not_or] at h
      rw [dictInsert_cons, if_neg (fun he => h.1 he.symm), List.cons_append, ih h.2]

lemma dictKeys_insert_mem {β : Type} (d : List (Str × β)) (k : Str) (v : β)
    (h : k ∈ dictKeys d) : dictKeys (dictInsert d k v) = dictKeys d := by
  induction d with
  | nil => simp [dictKeys] at h
  | cons p rest ih =>
      obtain ⟨k', v'⟩ := p
      rw [dictKeys_cons, List.mem_cons] at h
      by_cases hk : k' = k
      · subst hk
        rw [dictInsert_cons, if_pos rfl, dictKeys_cons, dictKeys_cons]
      · rcases h with h | h
        · exact absurd h.symm hk
        · rw [dictInsert_cons, if_neg hk, dictKeys_cons, dictKeys_cons, ih h]

lemma dictKeys_insert_nodup {β : Type} (d : List (Str × β)) (k : Str) (v : β)
    (h : (dictKeys d).Nodup) : (dictKeys (dictInsert d k v)).Nodup := by
  by_cases hk : k ∈ dictKeys d
  · rw [dictKeys_insert_mem d k v hk]; exact h
  · rw [dictInsert_of_not_mem d k v hk]
    unfold dictKeys
    rw [List.map_append, List.nodup_append]
    refine ⟨h, List.nodup_singleton _, ?_⟩
    intro a ha hb
    rw [List.map_singleton, List.mem_singleton] at hb
    subst hb
    exact hk ha

lemma foldl_dictInsert_nodup {β γ : Type} (f : γ → Str)
    (g : γ → List (Str × β) → β) (l : List γ) (d : List (Str × β))
    (h : (dictKeys d).Nodup) :
    (dictKeys (l.foldl (fun acc p => dictInsert acc (f p) (g p acc)) d)).Nodup := by
  induction l generalizing d with
  | nil => exact h
  | cons p rest ih =>
      exact ih _ (dictKeys_insert_nodup _ _ _ h)

lemma allData_keys_nodup (text : Str) : (dictKeys (allData text)).Nodup := by
  unfold allData
  apply foldl_dictInsert_nodup
  apply foldl_dictInsert_nodup
  exact List.nodup_nil

lemma dictLookup_map_const {β β' : Type} (d : List (Str × β)) (c : β') (k : Str) :
    dictLookup (d.map (fun p => (p.1, c))) k = (dictLookup d k).map (fun _ => c) := by
  induction d with
  | nil => simp [dictLookup]
  | cons p rest ih =>
      obtain ⟨k', v'⟩ := p
      rw [List.map_cons]
      dsimp only
      rw [dictLookup_cons, dictLookup_cons]
      by_cases h : k' = k
      · rw [if_pos h, if_pos h]
        rfl
      · rw [if_neg h, if_neg h, ih]

lemma keyCounts_go (d : List (Str × AVal)) (c : List (Str × ℕ))
    (h : (dictKeys d).Nodup) (hdisj : ∀ k ∈ dictKeys d, dictLookup c k = none) :
    d.foldl (fun c p => dictInsert c p.1 ((dictLookup c p.1).getD 0 + 1)) c
      = c ++ d.map (fun p => (p.1, 1)) := by
  induction d generalizing c with
  | nil => simp
  | cons p rest ih =>
      obtain ⟨k, v⟩ := p
      have hk : dictLookup c k = none :=
        hdisj k (by rw [dictKeys_cons]; exact List.mem_cons_self _ _)
      have hknotin : k ∉ dictKeys c := (dictLookup_eq_none c k).mp hk
      rw [dictKeys_cons, List.nodup_cons] at h
      have hins : dictInsert c k ((dictLookup c k).getD 0 + 1) = c ++ [(k, 1)] := by
        rw [hk]
        exact dictInsert_of_not_mem c k 1 hknotin
      have hdisj2 : ∀ k' ∈ dictKeys rest, dictLookup (c ++ [(k, 1)]) k' = none := by
        intro k' hk'
        rw [dictLookup_append]
        have hk'c : dictLookup c k' = none :=
          hdisj k' (by rw [dictKeys_cons]; exact List.mem_cons_of_mem _ hk')
        rw [hk'c]
        have hne : k ≠ k' := fun he => h.1 (he ▸ hk')
        rw [dictLookup_cons, if_neg hne]
        rfl
      rw [List.foldl_cons]
      dsimp only
      rw [hins, ih (c ++ [(k, 1)]) h.2 hdisj2, List.map_cons, List.append_assoc]
      rfl

lemma keyCounts_of_nodup (d : List (Str × AVal)) (h : (dictKeys d).Nodup) :
    keyCounts d = d.map (fun p => (p.1, 1)) := by
  unfold keyCounts
  rw [keyCounts_go d [] h (fun k _ => rfl)]
  rfl

lemma organizedData_go (counts : List (Str × ℕ)) (d : List (Str × AVal))
    (od : List (Str × OVal))
    (hcount : ∀ k ∈ dictKeys d, (dictLookup counts k).getD 0 = 1)
    (hdisj : ∀ k ∈ dictKeys d, dictLookup od k = none)
    (h : (dictKeys d).Nodup) :
    (d.foldl
      (fun od p =>
        if 1 < (dictLookup counts p.1).getD 0 then
          match dictLookup od p.1 with
          | some (OVal.arr xs) => dictInsert od p.1 (OVal.arr (xs ++ [p.2]))
          | some _ => dictInsert od p.1 (OVal.arr [p.2])
          | none => dictInsert od p.1 (OVal.arr [p.2])
        else dictInsert od p.1 (OVal.a p.2))
      od)
      = od ++ d.map (fun p => (p.1, OVal.a p.2)) := by
  induction d generalizing od with
  | nil => simp
  | cons p rest ih =>
      obtain ⟨k, v⟩ := p
      have hc : (dictLookup counts k).getD 0 = 1 :=
        hcount k (by rw [dictKeys_cons]; exact List.mem_cons_self _ _)
      have hnotlt : ¬ 1 < (dictLookup counts (k, v).1).getD 0 := by
        rw [show ((k, v).1 : Str) = k from rfl, hc]
        omega
      have hk : dictLookup od k = none :=
        hdisj k (by rw [dictKeys_cons]; exact List.mem_cons_self _ _)
      have hknotin : k ∉ dictKeys od := (dictLookup_eq_none od k).mp hk
      rw [dictKeys_cons, List.nodup_cons] at h
      rw [List.foldl_cons, if_neg hnotlt,
        show dictInsert od (k, v).1 (OVal.a (k, v).2) = od ++ [(k, OVal.a v)] from
          dictInsert_of_not_mem od k (OVal.a v) hknotin]
      rw [ih (od ++ [(k, OVal.a v)]) (fun k' hk' => hcount k'
            (by rw [dictKeys_cons]; exact List.mem_cons_of_mem _ hk')) ?_ h.2]
      · rw [List.map_cons, List.append_assoc]
        rfl
      · intro k' hk'
        rw [dictLookup_append]
        have hk'c : dictLookup od k' = none := hdisj k'
          (by rw [dictKeys_cons]; exact List.mem_cons_of_mem _ hk')
        rw [hk'c]
        have hne : k ≠ k' := fun he => h.1 (he ▸ hk')
        rw [dictLookup_cons, if_neg hne]
        rfl

/-- The duplicate-to-array branch of step 3 is dead code: `all_data` is a
dict, so `key_counts` is identically 1 and `organized_data` is `all_data`
itself (with its values merely re-tagged). -/
lemma organizedData_eq_allData (text : Str) :
    organizedData text = (allData text).map (fun p => (p.1, OVal.a p.2)) := by
  unfold organizedData
  have hnodup := allData_keys_nodup text
  have hcounts := keyCounts_of_nodup (allData text) hnodup
  rw [organizedData_go (keyCounts (allData text)) (allData text) [] ?_ (fun k _ => rfl) hnodup]
  · rfl
  · intro k hk
    rw [hcounts, dictLookup_map_const]
    have hne : dictLookup (allData text) k ≠ none := by
      rw [Ne, dictLookup_eq_none]
      intro hcontra
      exact hcontra hk
    rcases Option.ne_none_iff_exists.mp hne with ⟨w, hw⟩
    rw [← hw]
    rfl


/-- **C7.** The repair stage does not coalesce duplicate keys into arrays:
on `'"a": "1", "a": "2"'` both pairs are extracted, yet the repaired
object maps `"a"` to the single (last) value `"2"`, because the extraction
stores pairs into the `all_data` dict before occurrences are counted —
`key_counts` is computed over the already-deduplicated keys, so the
documented array-building branch can never run (third conjunct). -/
theorem duplicate_keys_not_coalesced :
    findSimpleKV (strOf "\"a\": \"1\", \"a\": \"2\"")
      = [(strOf "a", strOf "1"), (strOf "a", strOf "2")]
    ∧ generic_json_repair (strOf "\"a\": \"1\", \"a\": \"2\"")
      = [(strOf "a", FVal.val (OVal.a (AVal.s (strOf "2"))))]
    ∧ ∀ text, organizedData text = (allData text).map (fun p => (p.1, OVal.a p.2)) :=
  ⟨by decide, by decide, organizedData_eq_allData⟩

/-! ### Idempotence of the repair step

`clean_json_string` is not idempotent in general — entity grouping is
re-flattened by a second pass (see the counterexample) — but it is
idempotent on inputs whose extracted content is plain simple pairs.  The
predicates below carve out that class. -/

/-- Counterexample to C8 as stated: on `'"1": "a"'` the repair emits an
`"entities"` grouping, and running the repair on its own output re-extracts
the entity's fields as top-level pairs, so
`repair(repair(x)) ≠ repair(x)`. -/
theorem repair_not_idempotent :
    clean_json_string (clean_json_string (strOf "\"1\": \"a\""))
      ≠ clean_json_string (strOf "\"1\": \"a\"") := by
  decide

/-- The cleaned (stripped) simple pairs extracted from a text — the
contents of `all_data` before nested objects are merged. -/
def cleanedPairs (u : Str) : List (Str × Str) :=
  (findSimpleKV u).map (fun p => (pyStrip p.1, pyStrip p.2))

/-- A character of a key that already is in normalised form: lowercase
ASCII letter, ASCII digit, or underscore. -/
def isKeyChar (c : Char) : Bool :=
  (97 ≤ c.toNat ∧ c.toNat ≤ 122) ∨ (48 ≤ c.toNat ∧ c.toNat ≤ 57) ∨ c = '_'

/-- A value character that serialises as itself under `json.dumps`
(printable ASCII, not escaped) and cannot interfere with the extraction
patterns (no quote, backslash or brace). -/
def plainChar (c : Char) : Bool :=
  (32 ≤ c.toNat ∧ c.toNat ≤ 126) ∧ c ≠ '"' ∧ c ≠ '\\' ∧ c ≠ '\x7b' ∧ c ≠ '\x7d'

/-- The decidable class of repair inputs with only plain simple content:
after the unescape step the nested pattern finds nothing, and every
extracted pair has a distinct, non-empty, non-numeric, already-normalised
key of normalised characters, and an already-stripped value of plain
characters. -/
def SimpleOnly (t : Str) : Bool :=
  let u := pyUnescape t
  let ps := cleanedPairs u
  findNestedKV u = ([] : List (Str × Str))
  ∧ (ps.map Prod.fst).Nodup
  ∧ ps.all (fun p =>
      p.1 ≠ [] ∧ p.1.all isKeyChar ∧ normalize_field_name p.1 = p.1
      ∧ !(pyIsDigit p.1) ∧ p.2.all plainChar ∧ pyStrip p.2 = p.2)

/-- The repaired object of a pure simple-pair extraction. -/
def simpleFinal (ps : List (Str × Str)) : List (Str × FVal) :=
  ps.map (fun p => (p.1, FVal.val (OVal.a (AVal.s p.2))))

/-- The serialised form of one simple pair (no escaping applies). -/
def entryRender (p : Str × Str) : Str :=
  ('"' :: p.1 ++ ['"']) ++ ':' :: ' ' :: ('"' :: p.2 ++ ['"'])

/-- The serialised form of a pure simple-pair object. -/
def renderSimple (ps : List (Str × Str)) : Str :=
  renderBraced '\x7b' '\x7d' 0 (ps.map entryRender)

lemma foldl_dictInsert_eq {β γ : Type} (f : γ → Str) (g : γ → β) (l : List γ)
    (d : List (Str × β)) (hnodup : (l.map f).Nodup)
    (hdisj : ∀ p ∈ l, f p ∉ dictKeys d) :
    l.foldl (fun acc p => dictInsert acc (f p) (g p)) d
      = d ++ l.map (fun p => (f p, g p)) := by
  induction l generalizing d with
  | nil => simp
  | cons p rest ih =>
      rw [List.map_cons, List.nodup_cons] at hnodup
      have hp : f p ∉ dictKeys d := hdisj p (List.mem_cons_self _ _)
      have hdisj2 : ∀ q ∈ rest, f q ∉ dictKeys (d ++ [(f p, g p)]) := by
        intro q hq
        have h1 : f q ∉ dictKeys d := hdisj q (List.mem_cons_of_mem _ hq)
        have h2 : f q ≠ f p := fun he => hnodup.1 (he ▸ List.mem_map_of_mem f hq)
        unfold dictKeys
        rw [List.map_append, List.mem_append, List.map_singleton, List.mem_singleton]
        rintro (hc | hc)
        · exact h1 hc
        · exact h2 hc
      rw [List.foldl_cons, dictInsert_of_not_mem d (f p) (g p) hp,
        ih (d ++ [(f p, g p)]) hnodup.2 hdisj2, List.map_cons, List.append_assoc]
      rfl

lemma cleanedPairs_fst (u : Str) :
    (cleanedPairs u).map Prod.fst = (findSimpleKV u).map (fun p => pyStrip p.1) := by
  unfold cleanedPairs
  rw [List.map_map]
  rfl

/-- On an input whose unescaped form yields no nested matches and whose
cleaned simple pairs carry distinct, normalised, non-numeric keys, the
repair reduces to re-emitting those pairs. -/
lemma generic_json_repair_simple (u : Str)
    (hnested : findNestedKV u = [])
    (hnodup : ((cleanedPairs u).map Prod.fst).Nodup)
    (hkeys : ∀ p ∈ cleanedPairs u, normalize_field_name p.1 = p.1)
    (hdig : ∀ p ∈ cleanedPairs u, pyIsDigit p.1 = false) :
    generic_json_repair u = simpleFinal (cleanedPairs u) := by
  have hnodup' : ((findSimpleKV u).map (fun p => pyStrip p.1)).Nodup := by
    rw [← cleanedPairs_fst]
    exact hnodup
  have hall : allData u = (cleanedPairs u).map (fun p => (p.1, AVal.s p.2)) := by
    unfold allData
    rw [hnested]
    have h1 := foldl_dictInsert_eq (fun p : Str × Str => pyStrip p.1)
      (fun p : Str × Str => AVal.s (pyStrip p.2)) (findSimpleKV u) [] hnodup'
      (fun p _ => by simp [dictKeys])
    rw [List.foldl_nil]
    refine Eq.trans h1 ?_
    rw [List.nil_append]
    unfold cleanedPairs
    rw [List.map_map]
    rfl
  have horg : organizedData u = (cleanedPairs u).map (fun p => (p.1, OVal.a (AVal.s p.2))) := by
    rw [organizedData_eq_allData, hall, List.map_map]
    rfl
  have hnum : numberedItems u = [] := by
    unfold numberedItems
    rw [horg, List.filter_eq_nil_iff]
    intro a ha
    rcases List.mem_map.mp ha with ⟨p, hp, rfl⟩
    simp only [Bool.not_eq_true]
    exact hdig p hp
  have hreg : regularItems u = (cleanedPairs u).map (fun p => (p.1, OVal.a (AVal.s p.2))) := by
    unfold regularItems
    rw [horg]
    rw [List.filter_eq_self]
    intro a ha
    rcases List.mem_map.mp ha with ⟨p, hp, rfl⟩
    simp only [Bool.not_eq_eq_eq_not, Bool.not_true]
    exact hdig p hp
  unfold generic_json_repair
  rw [hnum, hreg]
  simp only [ne_eq, not_true_eq_false, if_false, List.map_nil, List.any_nil,
    Bool.false_eq_true, reduceIte]
  have h2 := foldl_dictInsert_eq
    (fun q : Str × OVal => normalize_field_name q.1) (fun q : Str × OVal => FVal.val q.2)
    ((cleanedPairs u).map (fun p => (p.1, OVal.a (AVal.s p.2)))) [] ?_ (fun p _ => by simp [dictKeys])
  · refine Eq.trans h2 ?_
    rw [List.nil_append, List.map_map]
    unfold simpleFinal
    apply List.map_congr_left
    intro p hp
    have := hkeys p hp
    simp only [Function.comp]
    rw [this]
  · rw [List.map_map]
    have : ((fun q : Str × OVal => normalize_field_name q.1) ∘
        (fun p : Str × Str => (p.1, OVal.a (AVal.s p.2)))) =
        fun p : Str × Str => normalize_field_name p.1 := rfl
    rw [this]
    have heq : (cleanedPairs u).map (fun p => normalize_field_name p.1)
        = (cleanedPairs u).map Prod.fst := by
      apply List.map_congr_left
      intro p hp
      exact hkeys p hp
    rw [heq]
    exact hnodup

lemma plainChar_props (c : Char) (h : plainChar c = true) :
    32 ≤ c.toNat ∧ c.toNat ≤ 126 ∧ c ≠ '"' ∧ c ≠ '\\' ∧ c ≠ '\x7b' ∧ c ≠ '\x7d' := by
  unfold plainChar at h
  simp only [Bool.and_eq_true, decide_eq_true_eq] at h
  exact ⟨h.1.1, h.1.2, h.2.1, h.2.2.1, h.2.2.2.1, h.2.2.2.2⟩

lemma isKeyChar_plain (c : Char) (h : isKeyChar c = true) :
    plainChar c = true ∧ isPySpace c = false ∧ c ≠ ':' ∧ c ≠ ',' ∧ c ≠ '\n' := by
  unfold isKeyChar at h
  simp only [Bool.or_eq_true, Bool.and_eq_true, decide_eq_true_eq] at h
  rcases h with ⟨h1, h2⟩ | ⟨h1, h2⟩ | h
  · have hne : ∀ x : Char, x.toNat < 97 ∨ 122 < x.toNat → c ≠ x := by
      intro x hx he
      subst he
      rcases hx with hx | hx <;> omega
    refine ⟨?_, ?_, hne ':' (by decide), hne ',' (by decide), hne '\n' (by decide)⟩
    · unfold plainChar
      simp only [Bool.and_eq_true, decide_eq_true_eq]
      exact ⟨⟨by omega, by omega⟩, hne '"' (by decide), hne '\\' (by decide),
        hne '\x7b' (by decide), hne '\x7d' (by decide)⟩
    · rw [Bool.eq_false_iff]
      intro hsp
      unfold isPySpace at hsp
      simp only [Bool.or_eq_true, decide_eq_true_eq] at hsp
      rcases hsp with he | he | he | he | he | he
      · exact hne ' ' (by decide) he
      · exact hne '\t' (by decide) he
      · exact hne '\n' (by decide) he
      · exact hne '\r' (by decide) he
      · exact hne '\x0b' (by decide) he
      · exact hne '\x0c' (by decide) he
  · have hne : ∀ x : Char, x.toNat < 48 ∨ 57 < x.toNat → c ≠ x := by
      intro x hx he
      subst he
      rcases hx with hx | hx <;> omega
    refine ⟨?_, ?_, hne ':' (by decide), hne ',' (by decide), hne '\n' (by decide)⟩
    · unfold plainChar
      simp only [Bool.and_eq_true, decide_eq_true_eq]
      exact ⟨⟨by omega, by omega⟩, hne '"' (by decide), hne '\\' (by decide),
        hne '\x7b' (by decide), hne '\x7d' (by decide)⟩
    · rw [Bool.eq_false_iff]
      intro hsp
      unfold isPySpace at hsp
      simp only [Bool.or_eq_true, decide_eq_true_eq] at hsp
      rcases hsp with he | he | he | he | he | he
      · exact hne ' ' (by decide) he
      · exact hne '\t' (by decide) he
      · exact hne '\n' (by decide) he
      · exact hne '\r' (by decide) he
      · exact hne '\x0b' (by decide) he
      · exact hne '\x0c' (by decide) he
  · subst h; decide

lemma escChar_plain (c : Char) (h : plainChar c = true) : escChar c = [c] := by
  obtain ⟨h1, h2, hq, hb, _, _⟩ := plainChar_props c h
  have hne : ∀ x : Char, x.toNat < 32 ∨ 126 < x.toNat → c ≠ x := by
    intro x hx he
    subst he
    rcases hx with hx | hx <;> omega
  unfold escChar
  rw [if_neg hq, if_neg hb, if_neg (hne '\n' (by decide)), if_neg (hne '\t' (by decide)),
    if_neg (hne '\r' (by decide)), if_neg (hne '\x08' (by decide)),
    if_neg (hne '\x0c' (by decide)), if_neg (by rintro (hc | hc) <;> omega)]

lemma escStr_plain (s : Str) (h : ∀ c ∈ s, plainChar c = true) : escStr s = s := by
  induction s with
  | nil => rfl
  | cons c rest ih =>
      unfold escStr at ih ⊢
      rw [List.map_cons, List.flatten_cons, escChar_plain c (h c (List.mem_cons_self _ _)),
        ih (fun c' hc' => h c' (List.mem_cons_of_mem _ hc'))]
      rfl

lemma dumpsFinal_simpleFinal (ps : List (Str × Str))
    (hk : ∀ p ∈ ps, ∀ c ∈ p.1, plainChar c = true)
    (hv : ∀ p ∈ ps, ∀ c ∈ p.2, plainChar c = true) :
    dumpsFinal (simpleFinal ps) = renderSimple ps := by
  unfold dumpsFinal simpleFinal renderSimple
  congr 1
  rw [List.map_map]
  apply List.map_congr_left
  intro p hp
  simp only [Function.comp]
  show dumpsStrLeaf p.1 ++ ':' :: ' ' :: dumpsStrLeaf p.2 = entryRender p
  unfold entryRender dumpsStrLeaf
  rw [escStr_plain p.1 (hk p hp), escStr_plain p.2 (hv p hp)]

lemma scanKV_zero_cons (c : Char) (rest : Str) :
    scanKV 0 (c :: rest) =
      if c = '"' then
        match tryKV rest with
        | some (key, v, used) => (key, v) :: scanKV used rest
        | none => scanKV 0 rest
      else scanKV 0 rest := rfl

lemma scanKV_skip (l₁ l₂ : Str) : scanKV l₁.length (l₁ ++ l₂) = scanKV 0 l₂ := by
  induction l₁ with
  | nil => rfl
  | cons c rest ih => exact ih

lemma scanKV_no_quote (l : Str) (h : ∀ c ∈ l, c ≠ '"') : scanKV 0 l = [] := by
  induction l with
  | nil => rfl
  | cons c rest ih =>
      rw [scanKV_zero_cons, if_neg (h c (List.mem_cons_self _ _))]
      exact ih (fun c' hc' => h c' (List.mem_cons_of_mem _ hc'))

lemma scanKV_append_no_quote (junk l : Str) (h : ∀ c ∈ junk, c ≠ '"') :
    scanKV 0 (junk ++ l) = scanKV 0 l := by
  induction junk with
  | nil => rfl
  | cons c rest ih =>
      rw [List.cons_append, scanKV_zero_cons, if_neg (h c (List.mem_cons_self _ _))]
      exact ih (fun c' hc' => h c' (List.mem_cons_of_mem _ hc'))

lemma takeWhile_append_cons {α : Type} (p : α → Bool) (l : List α) (c : α) (r : List α)
    (hl : ∀ x ∈ l, p x = true) (hc : p c = false) :
    (l ++ c :: r).takeWhile p = l := by
  induction l with
  | nil =>
      rw [List.nil_append, List.takeWhile_cons_of_neg]
      rw [hc]
      exact Bool.false_ne_true
  | cons a as ih =>
      rw [List.cons_append, List.takeWhile_cons_of_pos (by
        rw [hl a (List.mem_cons_self _ _)]),
        ih (fun x hx => hl x (List.mem_cons_of_mem _ hx))]

lemma tryKV_entry (k v rest : Str) (hk : k ≠ [])
    (hkq : ∀ c ∈ k, c ≠ '"') (hvq : ∀ c ∈ v, c ≠ '"') :
    tryKV (k ++ '"' :: ':' :: ' ' :: '"' :: (v ++ '"' :: rest))
      = some (k, v, k.length + 1 + v.length + 4) := by
  have ht1 : (k ++ '"' :: ':' :: ' ' :: '"' :: (v ++ '"' :: rest)).takeWhile
      (fun c => c ≠ '"') = k := by
    refine takeWhile_append_cons _ k _ _ (fun x hx => ?_) (by simp)
    simp [hkq x hx]
  have ht2 : (' ' :: '"' :: (v ++ '"' :: rest)).takeWhile isPySpace = [' '] := by
    rw [List.takeWhile_cons_of_pos (by decide), List.takeWhile_cons_of_neg (by decide)]
  have ht3 : (v ++ '"' :: rest).takeWhile (fun c => c ≠ '"') = v := by
    refine takeWhile_append_cons _ v _ _ (fun x hx => ?_) (by simp)
    simp [hvq x hx]
  simp only [tryKV]
  rw [ht1, if_neg hk, List.drop_left]
  show (match List.drop
        (List.takeWhile (fun c => decide (c ≠ '"')) (v ++ '"' :: rest)).length
        (v ++ '"' :: rest) with
    | '"' :: _ =>
        some (k, List.takeWhile (fun c => decide (c ≠ '"')) (v ++ '"' :: rest),
          k.length + 1 +
            (List.takeWhile (fun c => decide (c ≠ '"')) (v ++ '"' :: rest)).length + 4)
    | _ => none)
    = some (k, v, k.length + 1 + v.length + 4)
  rw [ht3, List.drop_left]
  rfl

lemma scanKV_entry (k v rest : Str) (hk : k ≠ [])
    (hkq : ∀ c ∈ k, c ≠ '"') (hvq : ∀ c ∈ v, c ≠ '"') :
    scanKV 0 ('"' :: (k ++ '"' :: ':' :: ' ' :: '"' :: (v ++ '"' :: rest)))
      = (k, v) :: scanKV 0 rest := by
  rw [scanKV_zero_cons, if_pos rfl, tryKV_entry k v rest hk hkq hvq]
  dsimp only
  congr 1
  have hsplit : k ++ '"' :: ':' :: ' ' :: '"' :: (v ++ '"' :: rest)
      = (k ++ '"' :: ':' :: ' ' :: '"' :: (v ++ ['"'])) ++ rest := by
    simp
  have hlen : (k ++ '"' :: ':' :: ' ' :: '"' :: (v ++ ['"'])).length
      = k.length + 1 + v.length + 4 := by
    simp [List.length_append]
    omega
  rw [hsplit, ← hlen, scanKV_skip]

lemma joinItems_nil (lvl : ℕ) : joinItems lvl [] = [] := rfl

lemma joinItems_single (lvl : ℕ) (it : Str) :
    joinItems lvl [it] = nlIndent (lvl + 1) ++ it := rfl

lemma joinItems_cons_cons (lvl : ℕ) (x y : Str) (t : List Str) :
    joinItems lvl (x :: y :: t) = nlIndent (lvl + 1) ++ x ++ ',' :: joinItems lvl (y :: t) := rfl

lemma mem_nlIndent (lvl : ℕ) (c : Char) (h : c ∈ nlIndent lvl) : c = '\n' ∨ c = ' ' := by
  unfold nlIndent at h
  rcases List.mem_cons.mp h with h | h
  · exact Or.inl h
  · exact Or.inr (List.eq_of_mem_replicate h)

lemma mem_entryRender (p : Str × Str) (c : Char) (h : c ∈ entryRender p) :
    c = '"' ∨ c = ':' ∨ c = ' ' ∨ c ∈ p.1 ∨ c ∈ p.2 := by
  unfold entryRender at h
  rw [List.mem_append] at h
  rcases h with h | h
  · rw [List.mem_append, List.mem_cons, List.mem_singleton] at h
    rcases h with (h | h) | h
    · exact Or.inl h
    · exact Or.inr (Or.inr (Or.inr (Or.inl h)))
    · exact Or.inl h
  · rw [List.mem_cons] at h
    rcases h with h | h
    · exact Or.inr (Or.inl h)
    · rw [List.mem_cons] at h
      rcases h with h | h
      · exact Or.inr (Or.inr (Or.inl h))
      · rw [List.mem_append, List.mem_cons, List.mem_singleton] at h
        rcases h with (h | h) | h
        · exact Or.inl h
        · exact Or.inr (Or.inr (Or.inr (Or.inr h)))
        · exact Or.inl h

lemma mem_joinItems (lvl : ℕ) (items : List Str) (c : Char) (h : c ∈ joinItems lvl items) :
    c = '\n' ∨ c = ' ' ∨ c = ',' ∨ ∃ it ∈ items, c ∈ it := by
  induction items with
  | nil => exact absurd h (List.not_mem_nil c)
  | cons x t ih =>
      cases t with
      | nil =>
          rw [joinItems_single, List.mem_append] at h
          rcases h with h | h
          · rcases mem_nlIndent _ c h with h | h
            · exact Or.inl h
            · exact Or.inr (Or.inl h)
          · exact Or.inr (Or.inr (Or.inr ⟨x, List.mem_singleton_self x, h⟩))
      | cons y t2 =>
          rw [joinItems_cons_cons, List.append_assoc, List.mem_append] at h
          rcases h with h | h
          · rcases mem_nlIndent _ c h with h | h
            · exact Or.inl h
            · exact Or.inr (Or.inl h)
          · rw [List.mem_append, List.mem_cons] at h
            rcases h with h | h | h
            · exact Or.inr (Or.inr (Or.inr ⟨x, List.mem_cons_self _ _, h⟩))
            · exact Or.inr (Or.inr (Or.inl h))
            · rcases ih h with h | h | h | ⟨it, hit, hc⟩
              · exact Or.inl h
              · exact Or.inr (Or.inl h)
              · exact Or.inr (Or.inr (Or.inl h))
              · exact Or.inr (Or.inr (Or.inr ⟨it, List.mem_cons_of_mem _ hit, hc⟩))

lemma scanKV_joinItems (ps : List (Str × Str)) (tail : Str)
    (hkeys : ∀ p ∈ ps, p.1 ≠ [] ∧ ∀ c ∈ p.1, c ≠ '"')
    (hvals : ∀ p ∈ ps, ∀ c ∈ p.2, c ≠ '"')
    (htail : ∀ c ∈ tail, c ≠ '"') :
    scanKV 0 (joinItems 0 (ps.map entryRender) ++ tail) = ps := by
  induction ps with
  | nil =>
      rw [List.map_nil, joinItems_nil, List.nil_append]
      exact scanKV_no_quote tail htail
  | cons p rest ih =>
      have hnl : ∀ c ∈ nlIndent 1, c ≠ '"' := by
        intro c hc
        rcases mem_nlIndent 1 c hc with h | h <;> (subst h; decide)
      have hkp := hkeys p (List.mem_cons_self _ _)
      have hvp := hvals p (List.mem_cons_self _ _)
      cases rest with
      | nil =>
          rw [List.map_cons, List.map_nil, joinItems_single, List.append_assoc,
            scanKV_append_no_quote _ _ hnl]
          have hsh : entryRender p ++ tail
              = '"' :: (p.1 ++ '"' :: ':' :: ' ' :: '"' :: (p.2 ++ '"' :: tail)) := by
            unfold entryRender
            simp
          rw [hsh, scanKV_entry p.1 p.2 tail hkp.1 hkp.2 hvp,
            scanKV_no_quote tail htail]
      | cons q t =>
          rw [List.map_cons, List.map_cons, joinItems_cons_cons, List.append_assoc,
            List.append_assoc, scanKV_append_no_quote _ _ hnl]
          have hsh : entryRender p ++ (',' :: joinItems 0 (entryRender q :: t.map entryRender) ++ tail)
              = '"' :: (p.1 ++ '"' :: ':' :: ' ' :: '"' ::
                  (p.2 ++ '"' :: (',' :: (joinItems 0 (entryRender q :: t.map entryRender) ++ tail)))) := by
            unfold entryRender
            simp
          rw [hsh, scanKV_entry p.1 p.2 _ hkp.1 hkp.2 hvp]
          rw [show (',' :: (joinItems 0 (entryRender q :: t.map entryRender) ++ tail))
              = [','] ++ (joinItems 0 (entryRender q :: t.map entryRender) ++ tail) from rfl]
          rw [scanKV_append_no_quote [','] _ (by intro c hc; rw [List.mem_singleton] at hc; subst hc; decide)]
          rw [← List.map_cons entryRender q t]
          rw [ih (fun r hr => hkeys r (List.mem_cons_of_mem _ hr))
            (fun r hr => hvals r (List.mem_cons_of_mem _ hr))]

lemma findSimpleKV_renderSimple (ps : List (Str × Str))
    (hkeys : ∀ p ∈ ps, p.1 ≠ [] ∧ ∀ c ∈ p.1, c ≠ '"')
    (hvals : ∀ p ∈ ps, ∀ c ∈ p.2, c ≠ '"') :
    findSimpleKV (renderSimple ps) = ps := by
  cases ps with
  | nil => rfl
  | cons p rest =>
      have hbr : renderSimple (p :: rest)
          = '\x7b' :: ((joinItems 0 ((p :: rest).map entryRender) ++ nlIndent 0) ++ ['\x7d']) := by
        unfold renderSimple renderBraced
        rw [List.map_cons]
        rfl
      unfold findSimpleKV
      rw [hbr, scanKV_zero_cons, if_neg (by decide), List.append_assoc]
      rw [show nlIndent 0 ++ ['\x7d'] = ['\n', '\x7d'] from rfl]
      exact scanKV_joinItems (p :: rest) ['\n', '\x7d'] hkeys hvals
        (by intro c hc; rcases List.mem_cons.mp hc with h | h
            · subst h; decide
            · rw [List.mem_singleton] at h; subst h; decide)

lemma scanNested_zero_cons (c : Char) (rest : Str) :
    scanNested 0 (c :: rest) =
      if c = '"' then
        match tryNested rest with
        | some (key, content, used) => (key, content) :: scanNested used rest
        | none => scanNested 0 rest
      else scanNested 0 rest := rfl

lemma tryNested_some_brace {l : Str} {r : Str × Str × ℕ} (h : tryNested l = some r) :
    '\x7b' ∈ l := by
  simp only [tryNested] at h
  split at h
  · cases h
  · split at h
    · rename_i r2 heq
      split at h
      · rename_i r3 heq2
        have h1 : '\x7b' ∈ r2.drop (r2.takeWhile isPySpace).length := by
          rw [heq2]
          exact List.mem_cons_self _ _
        have h2 : '\x7b' ∈ r2 := List.drop_subset _ r2 h1
        have h3 : '\x7b' ∈ l.drop (l.takeWhile (fun c => c ≠ '"')).length := by
          rw [heq]
          exact List.mem_cons_of_mem _ (List.mem_cons_of_mem _ h2)
        exact List.drop_subset _ l h3
      · cases h
    · cases h

lemma scanNested_no_brace (l : Str) (h : '\x7b' ∉ l) : scanNested 0 l = [] := by
  induction l with
  | nil => rfl
  | cons c rest ih =>
      have hrest : '\x7b' ∉ rest := fun hc => h (List.mem_cons_of_mem _ hc)
      rw [scanNested_zero_cons]
      by_cases hc : c = '"'
      · rw [if_pos hc]
        cases e : tryNested rest with
        | some r => exact absurd (tryNested_some_brace e) hrest
        | none => exact ih hrest
      · rw [if_neg hc]
        exact ih hrest

lemma replaceAll_head_not_mem {pc : Char} (patTail rep l : Str) (h : pc ∉ l) :
    replaceAll (pc :: patTail) rep l = l := by
  unfold replaceAll
  induction l with
  | nil => rfl
  | cons c rest ih =>
      have hc : c ≠ pc := fun he => h (he ▸ List.mem_cons_self _ _)
      have hpre : ¬ ((pc :: patTail) ≠ [] ∧ (pc :: patTail).isPrefixOf (c :: rest)) := by
        rintro ⟨_, hp⟩
        rw [List.isPrefixOf] at hp
        rw [Bool.and_eq_true, beq_iff_eq] at hp
        exact hc hp.1.symm
      show replaceAllAux (pc :: patTail) rep 0 (c :: rest) = c :: rest
      rw [show replaceAllAux (pc :: patTail) rep 0 (c :: rest)
          = if (pc :: patTail) ≠ [] ∧ (pc :: patTail).isPrefixOf (c :: rest) then
              rep ++ replaceAllAux (pc :: patTail) rep ((pc :: patTail).length - 1) rest
            else c :: replaceAllAux (pc :: patTail) rep 0 rest from rfl,
        if_neg hpre]
      rw [ih (fun hc' => h (List.mem_cons_of_mem _ hc'))]

lemma pyUnescape_no_backslash (l : Str) (h : '\\' ∉ l) : pyUnescape l = l := by
  unfold pyUnescape
  rw [replaceAll_head_not_mem _ _ l h, replaceAll_head_not_mem _ _ l h]

/-- Characters of the rendered simple object: layout characters or key and
value characters. -/
lemma mem_renderSimple (ps : List (Str × Str)) (c : Char) (h : c ∈ renderSimple ps) :
    c = '\x7b' ∨ c = '\x7d' ∨ c = '\n' ∨ c = ' ' ∨ c = ',' ∨ c = ':' ∨ c = '"'
      ∨ ∃ p ∈ ps, c ∈ p.1 ∨ c ∈ p.2 := by
  unfold renderSimple renderBraced at h
  cases ps with
  | nil =>
      rw [List.map_nil] at h
      rcases List.mem_cons.mp h with h | h
      · exact Or.inl h
      · rw [List.mem_singleton] at h
        exact Or.inr (Or.inl h)
  | cons p rest =>
      rw [List.map_cons] at h
      rcases List.mem_cons.mp h with h | h
      · exact Or.inl h
      · simp only [List.append_eq] at h
        rw [List.append_assoc, List.mem_append] at h
        rcases h with h | h
        · rw [← List.map_cons] at h
          rcases mem_joinItems _ _ _ h with h | h | h | ⟨it, hit, hc⟩
          · exact Or.inr (Or.inr (Or.inl h))
          · exact Or.inr (Or.inr (Or.inr (Or.inl h)))
          · exact Or.inr (Or.inr (Or.inr (Or.inr (Or.inl h))))
          · rcases List.mem_map.mp hit with ⟨q, hq, rfl⟩
            rcases mem_entryRender q c hc with h | h | h | h | h
            · exact Or.inr (Or.inr (Or.inr (Or.inr (Or.inr (Or.inr (Or.inl h))))))
            · exact Or.inr (Or.inr (Or.inr (Or.inr (Or.inr (Or.inl h)))))
            · exact Or.inr (Or.inr (Or.inr (Or.inl h)))
            · exact Or.inr (Or.inr (Or.inr (Or.inr (Or.inr (Or.inr (Or.inr ⟨q, hq, Or.inl h⟩))))))
            · exact Or.inr (Or.inr (Or.inr (Or.inr (Or.inr (Or.inr (Or.inr ⟨q, hq, Or.inr h⟩))))))
        · rw [List.mem_append, List.mem_singleton] at h
          rcases h with h | h
          · rcases mem_nlIndent _ _ h with h | h
            · exact Or.inr (Or.inr (Or.inl h))
            · exact Or.inr (Or.inr (Or.inr (Or.inl h)))
          · exact Or.inr (Or.inl h)

lemma pyStrip_no_space (s : Str) (h : ∀ c ∈ s, isPySpace c = false) : pyStrip s = s := by
  have h1 : ∀ (l : Str), (∀ c ∈ l, isPySpace c = false) → l.dropWhile isPySpace = l := by
    intro l hl
    cases l with
    | nil => rfl
    | cons c r =>
        refine List.dropWhile_cons_of_neg ?_
        rw [hl c (List.mem_cons_self _ _)]
        exact Bool.false_ne_true
  unfold pyStrip
  rw [h1 s h, h1 s.reverse (fun c hc => h c (List.mem_reverse.mp hc)), List.reverse_reverse]

/-- The component facts of `SimpleOnly`. -/
lemma SimpleOnly_props (t : Str) (h : SimpleOnly t = true) :
    findNestedKV (pyUnescape t) = []
    ∧ ((cleanedPairs (pyUnescape t)).map Prod.fst).Nodup
    ∧ ∀ p ∈ cleanedPairs (pyUnescape t),
        p.1 ≠ [] ∧ (∀ c ∈ p.1, isKeyChar c = true) ∧ normalize_field_name p.1 = p.1
        ∧ pyIsDigit p.1 = false ∧ (∀ c ∈ p.2, plainChar c = true) ∧ pyStrip p.2 = p.2 := by
  unfold SimpleOnly at h
  simp only [decide_eq_true_eq, Bool.and_eq_true, List.all_eq_true,
    Bool.not_eq_true'] at h
  refine ⟨h.1, h.2.1, ?_⟩
  intro p hp
  have hh := h.2.2 p hp
  simp only [decide_eq_true_eq, Bool.and_eq_true, List.all_eq_true,
    Bool.not_eq_true'] at hh
  exact ⟨hh.1, hh.2.1, hh.2.2.1, hh.2.2.2.1, hh.2.2.2.2.1, hh.2.2.2.2.2⟩

/-- Pair conditions under which a serialised simple object round-trips
through the repair unchanged. -/
lemma clean_json_string_renderSimple (ps : List (Str × Str))
    (hnodup : (ps.map Prod.fst).Nodup)
    (hfacts : ∀ p ∈ ps,
        p.1 ≠ [] ∧ (∀ c ∈ p.1, isKeyChar c = true) ∧ normalize_field_name p.1 = p.1
        ∧ pyIsDigit p.1 = false ∧ (∀ c ∈ p.2, plainChar c = true) ∧ pyStrip p.2 = p.2) :
    clean_json_string (renderSimple ps) = renderSimple ps := by
  have hknq : ∀ p ∈ ps, p.1 ≠ [] ∧ ∀ c ∈ p.1, c ≠ '"' := by
    intro p hp
    refine ⟨(hfacts p hp).1, fun c hc => ?_⟩
    exact (plainChar_props c (isKeyChar_plain c ((hfacts p hp).2.1 c hc)).1).2.2.1
  have hvnq : ∀ p ∈ ps, ∀ c ∈ p.2, c ≠ '"' := by
    intro p hp c hc
    exact (plainChar_props c ((hfacts p hp).2.2.2.2.1 c hc)).2.2.1
  have hnb : '\\' ∉ renderSimple ps := by
    intro hmem
    rcases mem_renderSimple ps _ hmem with h | h | h | h | h | h | h | ⟨p, hp, h | h⟩
    · cases h
    · cases h
    · cases h
    · cases h
    · cases h
    · cases h
    · cases h
    · exact (plainChar_props _ (isKeyChar_plain _ ((hfacts p hp).2.1 _ h)).1).2.2.2.1 rfl
    · exact (plainChar_props _ ((hfacts p hp).2.2.2.2.1 _ h)).2.2.2.1 rfl
  have hfind : findSimpleKV (renderSimple ps) = ps :=
    findSimpleKV_renderSimple ps hknq hvnq
  have hcleaned : cleanedPairs (renderSimple ps) = ps := by
    unfold cleanedPairs
    rw [hfind]
    have : ∀ p ∈ ps, (pyStrip p.1, pyStrip p.2) = p := by
      intro p hp
      have hks : pyStrip p.1 = p.1 := by
        refine pyStrip_no_space p.1 (fun c hc => ?_)
        exact (isKeyChar_plain c ((hfacts p hp).2.1 c hc)).2.1
      rw [hks, (hfacts p hp).2.2.2.2.2]
    calc ps.map (fun p => (pyStrip p.1, pyStrip p.2)) = ps.map id :=
          List.map_congr_left this
      _ = ps := List.map_id ps
  have hnested : findNestedKV (renderSimple ps) = [] := by
    unfold findNestedKV
    cases ps with
    | nil => rfl
    | cons p rest =>
        have hbr : renderSimple (p :: rest)
            = '\x7b' :: ((joinItems 0 ((p :: rest).map entryRender) ++ nlIndent 0)
                ++ ['\x7d']) := by
          unfold renderSimple renderBraced
          rw [List.map_cons]
          rfl
        rw [hbr, scanNested_zero_cons, if_neg (by decide)]
        refine scanNested_no_brace _ ?_
        intro hmem
        rw [List.append_assoc, List.mem_append] at hmem
        rcases hmem with hmem | hmem
        · rcases mem_joinItems _ _ _ hmem with h | h | h | ⟨it, hit, hc⟩
          · cases h
          · cases h
          · cases h
          · rcases List.mem_map.mp hit with ⟨q, hq, rfl⟩
            rcases mem_entryRender q _ hc with h | h | h | h | h
            · cases h
            · cases h
            · cases h
            · exact (plainChar_props _ (isKeyChar_plain _ ((hfacts q hq).2.1 _ h)).1).2.2.2.2.1 rfl
            · exact (plainChar_props _ ((hfacts q hq).2.2.2.2.1 _ h)).2.2.2.2.1 rfl
        · rw [List.mem_append, List.mem_singleton] at hmem
          rcases hmem with hmem | hmem
          · rcases mem_nlIndent _ _ hmem with h | h <;> cases h
          · cases hmem
  unfold clean_json_string
  rw [pyUnescape_no_backslash _ hnb,
    generic_json_repair_simple (renderSimple ps) hnested
      (by rw [hcleaned]; exact hnodup)
      (by rw [hcleaned]; exact fun p hp => (hfacts p hp).2.2.1)
      (by rw [hcleaned]; exact fun p hp => (hfacts p hp).2.2.2.1),
    hcleaned]
  refine dumpsFinal_simpleFinal ps ?_ ?_
  · intro p hp c hc
    exact (isKeyChar_plain c ((hfacts p hp).2.1 c hc)).1
  · intro p hp
    exact (hfacts p hp).2.2.2.2.1

/-- **C8 (amended).** The repair step is not idempotent in general (see the
counterexample: numerically-keyed content is grouped into `"entities"` on
the first pass and flattened again on the second); it is idempotent on
every input whose unescaped form contains no nested-object matches and
whose extracted pairs are plain simple pairs: distinct, non-empty,
non-numeric, already-normalised keys with already-stripped values of
printable unescaped characters. -/
theorem repair_idempotent_on_plain_simple_pairs (t : Str) (h : SimpleOnly t = true) :
    clean_json_string (clean_json_string t) = clean_json_string t := by
  obtain ⟨hnested, hnodup, hfacts⟩ := SimpleOnly_props t h
  have h1 : clean_json_string t = renderSimple (cleanedPairs (pyUnescape t)) := by
    unfold clean_json_string
    rw [generic_json_repair_simple (pyUnescape t) hnested hnodup
      (fun p hp => (hfacts p hp).2.2.1) (fun p hp => (hfacts p hp).2.2.2.1)]
    refine dumpsFinal_simpleFinal _ ?_ ?_
    · intro p hp c hc
      exact (isKeyChar_plain c ((hfacts p hp).2.1 c hc)).1
    · intro p hp
      exact (hfacts p hp).2.2.2.2.1
  rw [h1]
  exact clean_json_string_renderSimple (cleanedPairs (pyUnescape t)) hnodup hfacts

/-- Witness for C8's amended theorem: `'"a": "1", "b": "2"'` is in the
simple class and the repair is idempotent on it. -/
theorem repair_idempotent_on_plain_simple_pairs_witness :
    clean_json_string (clean_json_string (strOf "\"a\": \"1\", \"b\": \"2\""))
      = clean_json_string (strOf "\"a\": \"1\", \"b\": \"2\"") :=
  repair_idempotent_on_plain_simple_pairs (strOf "\"a\": \"1\", \"b\": \"2\"") (by decide)

end DocParse
